import Mathlib

/-!
Formal model of `FMDNCrypto/foreign_tracker_cryptor.py` from
GoogleFindMyTools-homeassistant: reconstruction of SECP160r1 points from
x-coordinates, the ECDH/HKDF/AES-EAX encrypt and decrypt pipeline, and the
properties claimed of them.

Bytes are modelled as lists of naturals (each `< 256` where it matters),
machine integers as `Nat`/`Int` with explicit reductions, curve points as
`Option (ZMod P × ZMod P)` (with `none` the point at infinity), and the
external libraries (`cryptography`'s HKDF, PyCryptodome's AES block cipher,
and the `ecdsa` package's curve arithmetic) as explicit function parameters
resp. executable definitions refined against Mathlib's Weierstrass curve
group.
-/

set_option maxRecDepth 100000

namespace FMDN

/-! ### Byte-string primitives

`int.from_bytes(l, byteorder='big')` and `n.to_bytes(k, 'big')`. -/

/-- Big-endian interpretation of a byte list as a natural number, as in
Python's `int.from_bytes(l, byteorder='big')`. -/
def bytesToNatBE (l : List ℕ) : ℕ :=
  l.foldl (fun a b => 256 * a + b) 0

/-- The `k`-byte big-endian encoding of `n`, as in Python's
`n.to_bytes(k, 'big')` (for `n < 256 ^ k`). -/
def natToBytesBE : ℕ → ℕ → List ℕ
  | 0, _ => []
  | k + 1, n => natToBytesBE k (n / 256) ++ [n % 256]

/-- Python `int.from_bytes(l, byteorder='big', signed=True)`: two's-complement
big-endian interpretation. -/
def signedBE (l : List ℕ) : ℤ :=
  if 2 ^ (8 * l.length - 1) ≤ bytesToNatBE l ∧ l ≠ [] then
    (bytesToNatBE l : ℤ) - 2 ^ (8 * l.length)
  else
    (bytesToNatBE l : ℤ)

theorem bytesToNatBE_go (a : ℕ) (l : List ℕ) :
    l.foldl (fun a b => 256 * a + b) a = a * 256 ^ l.length + bytesToNatBE l := by
  induction l generalizing a with
  | nil => simp [bytesToNatBE]
  | cons b bs ih =>
    simp only [List.foldl_cons, List.length_cons, bytesToNatBE]
    rw [ih (256 * a + b), show (256 : ℕ) * 0 + b = b by ring, ih b]
    ring

theorem bytesToNatBE_cons (b : ℕ) (l : List ℕ) :
    bytesToNatBE (b :: l) = b * 256 ^ l.length + bytesToNatBE l := by
  simpa [bytesToNatBE] using bytesToNatBE_go b l

theorem bytesToNatBE_append (l₁ l₂ : List ℕ) :
    bytesToNatBE (l₁ ++ l₂) = bytesToNatBE l₁ * 256 ^ l₂.length + bytesToNatBE l₂ := by
  induction l₁ with
  | nil => simp [bytesToNatBE]
  | cons b bs ih =>
    rw [List.cons_append, bytesToNatBE_cons, bytesToNatBE_cons, ih]
    simp only [List.length_append]
    ring

theorem bytesToNatBE_lt (l : List ℕ) (h : ∀ b ∈ l, b < 256) :
    bytesToNatBE l < 256 ^ l.length := by
  induction l with
  | nil => simp [bytesToNatBE]
  | cons b bs ih =>
    rw [bytesToNatBE_cons]
    have hb : b < 256 := h b (List.mem_cons_self ..)
    have hbs : bytesToNatBE bs < 256 ^ bs.length := ih fun x hx => h x (List.mem_cons_of_mem _ hx)
    calc b * 256 ^ bs.length + bytesToNatBE bs
        < b * 256 ^ bs.length + 256 ^ bs.length := by omega
      _ = (b + 1) * 256 ^ bs.length := by ring
      _ ≤ 256 * 256 ^ bs.length := by
          exact Nat.mul_le_mul_right _ (by omega)
      _ = 256 ^ (b :: bs).length := by rw [List.length_cons]; ring

theorem bytesToNatBE_inj (l₁ l₂ : List ℕ) (hlen : l₁.length = l₂.length)
    (h₁ : ∀ b ∈ l₁, b < 256) (h₂ : ∀ b ∈ l₂, b < 256)
    (h : bytesToNatBE l₁ = bytesToNatBE l₂) : l₁ = l₂ := by
  induction l₁ generalizing l₂ with
  | nil => cases l₂ with
    | nil => rfl
    | cons => simp at hlen
  | cons b bs ih =>
    cases l₂ with
    | nil => simp at hlen
    | cons c cs =>
      simp only [List.length_cons, Nat.succ.injEq] at hlen
      rw [bytesToNatBE_cons, bytesToNatBE_cons, hlen] at h
      have hbs : bytesToNatBE bs < 256 ^ cs.length := by
        rw [← hlen]; exact bytesToNatBE_lt bs fun x hx => h₁ x (List.mem_cons_of_mem _ hx)
      have hcs : bytesToNatBE cs < 256 ^ cs.length :=
        bytesToNatBE_lt cs fun x hx => h₂ x (List.mem_cons_of_mem _ hx)
      have hp : 0 < 256 ^ cs.length := Nat.pos_pow_of_pos _ (by norm_num)
      have e1 : (b * 256 ^ cs.length + bytesToNatBE bs) / 256 ^ cs.length = b := by
        rw [Nat.mul_comm b, Nat.mul_add_div hp, Nat.div_eq_of_lt hbs, Nat.add_zero]
      have e2 : (c * 256 ^ cs.length + bytesToNatBE cs) / 256 ^ cs.length = c := by
        rw [Nat.mul_comm c, Nat.mul_add_div hp, Nat.div_eq_of_lt hcs, Nat.add_zero]
      have hbc : b = c := by rw [← e1, ← e2, h]
      subst hbc
      have : bytesToNatBE bs = bytesToNatBE cs := by omega
      rw [ih cs hlen (fun x hx => h₁ x (List.mem_cons_of_mem _ hx))
        (fun x hx => h₂ x (List.mem_cons_of_mem _ hx)) this]

theorem natToBytesBE_length (k n : ℕ) : (natToBytesBE k n).length = k := by
  induction k generalizing n with
  | zero => rfl
  | succ k ih => simp [natToBytesBE, ih]

theorem natToBytesBE_bytes_lt (k n : ℕ) : ∀ b ∈ natToBytesBE k n, b < 256 := by
  induction k generalizing n with
  | zero => simp [natToBytesBE]
  | succ k ih =>
    intro b hb
    simp only [natToBytesBE, List.mem_append, List.mem_singleton] at hb
    rcases hb with hb | hb
    · exact ih _ b hb
    · subst hb; exact Nat.mod_lt _ (by norm_num)

theorem bytesToNatBE_natToBytesBE (k n : ℕ) (h : n < 256 ^ k) :
    bytesToNatBE (natToBytesBE k n) = n := by
  induction k generalizing n with
  | zero => simpa [natToBytesBE, bytesToNatBE] using (Nat.lt_one_iff.mp h).symm
  | succ k ih =>
    have hdiv : n / 256 < 256 ^ k := by
      rw [Nat.div_lt_iff_lt_mul (by norm_num)]
      calc n < 256 ^ (k + 1) := h
        _ = 256 ^ k * 256 := by ring
    rw [natToBytesBE, bytesToNatBE_append, ih _ hdiv]
    simp [bytesToNatBE_cons, bytesToNatBE]
    omega

theorem natToBytesBE_inj (k a b : ℕ) (ha : a < 256 ^ k) (hb : b < 256 ^ k)
    (h : natToBytesBE k a = natToBytesBE k b) : a = b := by
  rw [← bytesToNatBE_natToBytesBE k a ha, ← bytesToNatBE_natToBytesBE k b hb, h]

/-! ### Modular exponentiation

Python's three-argument `pow(b, e, m)`, square-and-multiply with a fuel
argument so the kernel can evaluate it. -/

def powModAux : ℕ → ℕ → ℕ → ℕ → ℕ
  | 0, _, _, m => 1 % m
  | fuel + 1, b, e, m =>
    if e = 0 then 1 % m
    else
      let h := powModAux fuel ((b * b) % m) (e / 2) m
      if e % 2 = 1 then (h * (b % m)) % m else h

/-- Python `pow(b, e, m)`. -/
def powMod (b e m : ℕ) : ℕ :=
  powModAux e b e m

theorem powModAux_eq (fuel : ℕ) : ∀ b e m, e ≤ fuel → powModAux fuel b e m = b ^ e % m := by
  induction fuel with
  | zero =>
    intro b e m he
    have he0 : e = 0 := by omega
    subst he0
    simp [powModAux]
  | succ fuel ih =>
    intro b e m he
    by_cases he0 : e = 0
    · simp [powModAux, he0]
    · have hdiv : e / 2 ≤ fuel := by omega
      have hrec : powModAux fuel ((b * b) % m) (e / 2) m = (b * b) ^ (e / 2) % m := by
        rw [ih _ _ _ hdiv, ← Nat.pow_mod]
      have hbb : (b * b) ^ (e / 2) = b ^ (2 * (e / 2)) := by
        rw [show b * b = b ^ 2 by ring, ← pow_mul]
      simp only [powModAux, he0, if_false, hrec]
      by_cases hodd : e % 2 = 1
      · rw [if_pos hodd, ← Nat.mul_mod]
        congr 1
        rw [hbb, ← pow_succ]
        congr 1
        omega
      · rw [if_neg hodd]
        congr 1
        rw [hbb]
        congr 1
        omega

theorem powMod_eq (b e m : ℕ) : powMod b e m = b ^ e % m := by
  exact powModAux_eq e b e m le_rfl

/-! ### Primality of the SECP160r1 field characteristic

The curve used by the source is SECP160r1; its prime modulus
`p = 2^160 - 2^31 - 1` is certified prime via `lucas_primality` with an
explicit factorisation of `p - 1`, recursing on the large factors. -/

theorem castPow_eq_one_iff (p a e : ℕ) (hp : 2 ≤ p) :
    (a : ZMod p) ^ e = 1 ↔ powMod a e p = 1 := by
  rw [powMod_eq]
  have h1 : (1 : ZMod p) = ((1 : ℕ) : ZMod p) := by norm_cast
  rw [show ((a : ZMod p)) ^ e = ((a ^ e : ℕ) : ZMod p) by push_cast; ring, h1,
    ZMod.natCast_eq_natCast_iff', Nat.mod_eq_of_lt (by omega : 1 < p)]

theorem lucasHelper (p a : ℕ) (qs : List ℕ) (hp : 2 ≤ p)
    (hprod : p - 1 = qs.prod)
    (hq : ∀ q ∈ qs, Nat.Prime q)
    (ha : powMod a (p - 1) p = 1)
    (hd : ∀ q ∈ qs, powMod a ((p - 1) / q) p ≠ 1) : Nat.Prime p := by
  apply lucas_primality p (a : ZMod p)
  · rw [castPow_eq_one_iff p a _ hp]
    exact ha
  · intro q hqprime hqdvd
    rw [Ne, castPow_eq_one_iff p a _ hp]
    rw [hprod] at hqdvd
    obtain ⟨q', hq'mem, hdvd⟩ := (Nat.Prime.prime hqprime).dvd_prod_iff.mp hqdvd
    have heq : q = q' := (Nat.prime_dvd_prime_iff_eq hqprime (hq q' hq'mem)).mp hdvd
    subst heq
    exact hd q hq'mem

/-- The SECP160r1 prime `p = 2^160 - 2^31 - 1`. -/
def P : ℕ := 1461501637330902918203684832716283019653785059327

/-- Large prime factor of `P - 1`. -/
def Q1 : ℕ := 176070659401435712181211511

/-- Large prime factor of `Q1 - 1`. -/
def Q2 : ℕ := 9281531860908577342183

/-- Large prime factor of `Q2 - 1`. -/
def Q3 : ℕ := 3799566302501

/-- Large prime factor of `Q3 - 1`. -/
def Q4 : ℕ := 1519826521

theorem q4_prime : Nat.Prime Q4 := by
  apply lucasHelper Q4 7 [2, 2, 2, 3, 5, 17, 745013]
  · norm_num [Q4]
  · decide
  · intro q hq
    fin_cases hq <;> norm_num
  · decide
  · decide

theorem q3_prime : Nat.Prime Q3 := by
  apply lucasHelper Q3 2 [2, 2, 5, 5, 5, 5, Q4]
  · norm_num [Q3]
  · decide
  · intro q hq
    fin_cases hq <;> first
      | exact q4_prime
      | norm_num
  · decide
  · decide

theorem q2_prime : Nat.Prime Q2 := by
  apply lucasHelper Q2 5 [2, 3, 3, 11, 709, 17401, Q3]
  · norm_num [Q2]
  · decide
  · intro q hq
    fin_cases hq <;> first
      | exact q3_prime
      | norm_num
  · decide
  · decide

theorem q1_prime : Nat.Prime Q1 := by
  apply lucasHelper Q1 7 [2, 5, 7, 271, Q2]
  · norm_num [Q1]
  · decide
  · intro q hq
    fin_cases hq <;> first
      | exact q2_prime
      | norm_num
  · decide
  · decide

theorem p6030259_prime : Nat.Prime 6030259 := by
  apply lucasHelper 6030259 2 [2, 3, 13, 13, 19, 313]
  · norm_num
  · decide
  · intro q hq
    fin_cases hq <;> norm_num
  · decide
  · decide

theorem p104179991_prime : Nat.Prime 104179991 := by
  apply lucasHelper 104179991 11 [2, 5, 349, 29851]
  · norm_num
  · decide
  · intro q hq
    fin_cases hq <;> norm_num
  · decide
  · decide

theorem pPrime : Nat.Prime P := by
  apply lucasHelper P 3 [2, 3, 19, 115901, 6030259, 104179991, Q1]
  · norm_num [P]
  · decide
  · intro q hq
    fin_cases hq <;> first
      | exact q1_prime
      | exact p6030259_prime
      | exact p104179991_prime
      | norm_num
  · decide
  · decide

instance : Fact (Nat.Prime P) := ⟨pPrime⟩

/-! ### SECP160r1 parameters

`curve.a()`, `curve.b()`, `curve.order` and the generator of the `ecdsa`
package's `SECP160r1` object. -/

/-- Curve coefficient `a = p - 3` (`curve.a()`). -/
def A : ℕ := P - 3

/-- Curve coefficient `b` (`curve.b()`). -/
def B : ℕ := 163235791306168110546604919403271579530548345413

/-- The group order `n` (`curve.order`). -/
def N : ℕ := 1461501637330902918203687197606826779884643492439

/-- x-coordinate of the SECP160r1 base point (`curve.generator`). -/
def Gx : ℕ := 425826231723888350446541592701409065913635568770

/-- y-coordinate of the SECP160r1 base point. -/
def Gy : ℕ := 203520114162904107873991457957346892027982641970

/-- SECP160r1 as a Mathlib Weierstrass curve over the field `ZMod P`. -/
def W : WeierstrassCurve.Affine (ZMod P) :=
  { a₁ := 0, a₂ := 0, a₃ := 0, a₄ := (A : ℕ), a₆ := (B : ℕ) }

theorem natCast_eq_natCast (a b : ℕ) (h : a % P = b % P) : (a : ZMod P) = b :=
  (ZMod.natCast_eq_natCast_iff' a b P).mpr h

/-! ### Affine points of the `ecdsa` package

A point is `none` (the `INFINITY` object) or a coordinate pair; the group
operations follow `ellipticcurve.Point.__add__`/`double`. -/

/-- An `ecdsa` affine point; `none` is the point at infinity. -/
abbrev EPoint : Type := Option (ZMod P × ZMod P)

/-- Membership on the curve: `y² = x³ + a·x + b`. -/
def onCurveXY (x y : ZMod P) : Prop :=
  y ^ 2 = x ^ 3 + (A : ℕ) * x + (B : ℕ)

instance (x y : ZMod P) : Decidable (onCurveXY x y) := by
  unfold onCurveXY; infer_instance

/-- Negation of an affine point (used only through the group structure). -/
def eNeg : EPoint → EPoint
  | none => none
  | some (x, y) => some (x, -y)

/-- `ellipticcurve.Point.__add__` (including the `double` branch). -/
def eAdd : EPoint → EPoint → EPoint
  | none, q => q
  | p, none => p
  | some (x₁, y₁), some (x₂, y₂) =>
    if x₁ = x₂ then
      if y₁ = -y₂ then none
      else
        let l := (3 * x₁ ^ 2 + (A : ℕ)) / (2 * y₁)
        let x₃ := l ^ 2 - x₁ - x₂
        some (x₃, -(l * (x₃ - x₁) + y₁))
    else
      let l := (y₂ - y₁) / (x₂ - x₁)
      let x₃ := l ^ 2 - x₁ - x₂
      some (x₃, -(l * (x₃ - x₁) + y₁))

/-- Binary double-and-add scalar multiplication, with fuel. -/
def eSmulAux : ℕ → ℕ → EPoint → EPoint
  | 0, _, _ => none
  | f + 1, n, p =>
    if n = 0 then none
    else
      let r := eSmulAux f (n / 2) (eAdd p p)
      if n % 2 = 1 then eAdd r p else r

/-- `n * point` of the `ecdsa` package. -/
def eSmul (n : ℕ) (p : EPoint) : EPoint :=
  eSmulAux n n p

/-- The base point `curve.generator` as an `EPoint`. -/
def eG : EPoint :=
  some ((Gx : ℕ), (Gy : ℕ))

/-- `point.x()`: `none` for the point at infinity. -/
def xOf : EPoint → Option (ZMod P) :=
  Option.map Prod.fst

/-! ### Refinement to Mathlib's nonsingular-point group -/

theorem deltaNeZero : W.Δ ≠ 0 := by
  have h : W.Δ = -(((64 * A ^ 3 + 432 * B ^ 2 : ℕ) : ZMod P)) := by
    simp only [WeierstrassCurve.Δ, WeierstrassCurve.b₂, WeierstrassCurve.b₄, WeierstrassCurve.b₆,
      WeierstrassCurve.b₈, W]
    push_cast
    ring
  rw [h, neg_ne_zero, Ne, ZMod.natCast_zmod_eq_zero_iff_dvd]
  decide

theorem equation_iff_onCurve (x y : ZMod P) : W.Equation x y ↔ onCurveXY x y := by
  rw [WeierstrassCurve.Affine.equation_iff]
  simp only [W, onCurveXY]
  constructor <;> intro h <;> linear_combination h

/-- Package an on-curve coordinate pair as a Mathlib nonsingular point. -/
def mkPoint (x y : ZMod P) (h : onCurveXY x y) : W.Point :=
  WeierstrassCurve.Affine.Point.some
    (W.nonsingular_of_Δ_ne_zero ((equation_iff_onCurve x y).mpr h) deltaNeZero)

/-- Forget the nonsingularity proof of a Mathlib point. -/
def absP : W.Point → EPoint
  | WeierstrassCurve.Affine.Point.zero => none
  | @WeierstrassCurve.Affine.Point.some _ _ _ x y _ => some (x, y)

theorem absP_mkPoint (x y : ZMod P) (h : onCurveXY x y) : absP (mkPoint x y h) = some (x, y) :=
  rfl

theorem absP_zero : absP (0 : W.Point) = none :=
  rfl

theorem absP_some_inv {p : W.Point} {x y : ZMod P} (h : absP p = some (x, y)) :
    ∃ hc : onCurveXY x y, p = mkPoint x y hc := by
  obtain _ | @⟨x', y', hp⟩ := p
  · simp [absP] at h
  · simp only [absP, Option.some.injEq, Prod.mk.injEq] at h
    obtain ⟨rfl, rfl⟩ := h
    exact ⟨(equation_iff_onCurve x' y').mp hp.1, rfl⟩

theorem W_a₁ : W.a₁ = 0 := rfl

theorem W_a₂ : W.a₂ = 0 := rfl

theorem W_a₃ : W.a₃ = 0 := rfl

theorem W_a₄ : W.a₄ = ((A : ℕ) : ZMod P) := rfl

theorem W_a₆ : W.a₆ = ((B : ℕ) : ZMod P) := rfl

theorem negY_eq (x y : ZMod P) : W.negY x y = -y := by
  simp only [WeierstrassCurve.Affine.negY, W_a₁, W_a₃]
  ring

theorem absP_neg (p : W.Point) : absP (-p) = eNeg (absP p) := by
  obtain _ | @⟨x, y, hp⟩ := p
  · rfl
  · rw [WeierstrassCurve.Affine.Point.neg_some]
    show some (x, W.negY x y) = some (x, -y)
    rw [negY_eq]

theorem eAdd_none_left (q : EPoint) : eAdd none q = q := by
  rcases q with _ | ⟨x, y⟩ <;> rfl

theorem eAdd_none_right (p : EPoint) : eAdd p none = p := by
  rcases p with _ | ⟨x, y⟩ <;> rfl

theorem absP_add (p q : W.Point) : absP (p + q) = eAdd (absP p) (absP q) := by
  obtain _ | @⟨x₁, y₁, h₁⟩ := p
  · rw [WeierstrassCurve.Affine.Point.zero_def, zero_add, absP_zero, eAdd_none_left]
  · obtain _ | @⟨x₂, y₂, h₂⟩ := q
    · rw [WeierstrassCurve.Affine.Point.zero_def, add_zero, absP_zero, eAdd_none_right]
    · by_cases hx : x₁ = x₂
      · by_cases hy : y₁ = W.negY x₂ y₂
        · rw [WeierstrassCurve.Affine.Point.add_of_Y_eq hx hy]
          show (none : EPoint) = eAdd (some (x₁, y₁)) (some (x₂, y₂))
          have hy' : y₁ = -y₂ := by rw [hy, negY_eq]
          simp only [eAdd]
          rw [if_pos hx, if_pos hy']
        · rw [WeierstrassCurve.Affine.Point.add_of_Y_ne hy]
          have hy' : ¬y₁ = -y₂ := by rw [← negY_eq x₂ y₂]; exact hy
          have hslope : W.slope x₁ x₂ y₁ y₂ = (3 * x₁ ^ 2 + ((A : ℕ) : ZMod P)) / (2 * y₁) := by
            rw [WeierstrassCurve.Affine.slope_of_Y_ne hx hy, negY_eq, W_a₁, W_a₂, W_a₄]
            have hd : y₁ - -y₁ = 2 * y₁ := by ring
            have hn : 3 * x₁ ^ 2 + 2 * 0 * x₁ + ((A : ℕ) : ZMod P) - 0 * y₁ =
                3 * x₁ ^ 2 + ((A : ℕ) : ZMod P) := by ring
            rw [hd, hn]
          show some (W.addX x₁ x₂ (W.slope x₁ x₂ y₁ y₂),
              W.addY x₁ x₂ y₁ (W.slope x₁ x₂ y₁ y₂)) = eAdd (some (x₁, y₁)) (some (x₂, y₂))
          simp only [eAdd]
          rw [if_pos hx, if_neg hy']
          simp only [Option.some.injEq, Prod.mk.injEq, WeierstrassCurve.Affine.addX,
            WeierstrassCurve.Affine.addY, WeierstrassCurve.Affine.negAddY,
            WeierstrassCurve.Affine.negY, W_a₁, W_a₂, W_a₃, W_a₄, hslope]
          constructor <;> ring
      · rw [WeierstrassCurve.Affine.Point.add_of_X_ne hx]
        have hslope : W.slope x₁ x₂ y₁ y₂ = (y₂ - y₁) / (x₂ - x₁) := by
          rw [WeierstrassCurve.Affine.slope_of_X_ne hx, ← neg_sub y₂ y₁, ← neg_sub x₂ x₁,
            neg_div_neg_eq]
        show some (W.addX x₁ x₂ (W.slope x₁ x₂ y₁ y₂),
            W.addY x₁ x₂ y₁ (W.slope x₁ x₂ y₁ y₂)) = eAdd (some (x₁, y₁)) (some (x₂, y₂))
        simp only [eAdd]
        rw [if_neg hx]
        simp only [Option.some.injEq, Prod.mk.injEq, WeierstrassCurve.Affine.addX,
          WeierstrassCurve.Affine.addY, WeierstrassCurve.Affine.negAddY,
          WeierstrassCurve.Affine.negY, W_a₁, W_a₂, W_a₃, W_a₄, hslope]
        constructor <;> ring

theorem eSmulAux_absP (f : ℕ) : ∀ (n : ℕ) (p : W.Point), n ≤ f →
    eSmulAux f n (absP p) = absP (n • p) := by
  induction f with
  | zero =>
    intro n p h
    have hn : n = 0 := by omega
    subst hn
    rw [zero_nsmul, absP_zero]
    rfl
  | succ f ih =>
    intro n p h
    by_cases hn : n = 0
    · subst hn
      rw [zero_nsmul, absP_zero]
      simp [eSmulAux]
    · have hdiv : n / 2 ≤ f := by omega
      have hrec : eSmulAux f (n / 2) (eAdd (absP p) (absP p)) = absP ((n / 2) • (p + p)) := by
        rw [← absP_add, ih _ _ hdiv]
      have htwo : (n / 2) • (p + p) = (n / 2 * 2) • p := by
        rw [← two_nsmul, ← mul_nsmul']
      simp only [eSmulAux, hn, if_false, hrec]
      by_cases hodd : n % 2 = 1
      · rw [if_pos hodd, ← absP_add, htwo]
        have hsplit : n = n / 2 * 2 + 1 := by omega
        have hstep : (n / 2 * 2) • p + p = n • p := by
          nth_rewrite 2 [show p = (1 : ℕ) • p from (one_nsmul p).symm]
          rw [← add_nsmul, ← hsplit]
        rw [hstep]
      · rw [if_neg hodd, htwo]
        have hsplit : n / 2 * 2 = n := by omega
        rw [hsplit]

theorem eSmul_absP (n : ℕ) (p : W.Point) : eSmul n (absP p) = absP (n • p) :=
  eSmulAux_absP n n p le_rfl

theorem gOnCurve : onCurveXY ((Gx : ℕ) : ZMod P) ((Gy : ℕ) : ZMod P) := by
  have h : ((Gy ^ 2 : ℕ) : ZMod P) = ((Gx ^ 3 + A * Gx + B : ℕ) : ZMod P) :=
    natCast_eq_natCast _ _ (by decide)
  push_cast at h
  exact h

/-- The base point as a Mathlib nonsingular point. -/
def GW : W.Point :=
  mkPoint _ _ gOnCurve

theorem absP_GW : absP GW = eG :=
  rfl

/-! ### Failure modes

The Python code raises `ValueError` in `rx_to_ry` and in the two AES
wrappers, PyCryptodome raises `ValueError("MAC check failed")` on tag
mismatch, and calling `.x()` on the point at infinity yields `None`, whose
`to_bytes` raises `AttributeError`.  The spec additionally posits a
`MalformedPayloadError`; the constructor is included so the claim about it
can be stated, but no code path produces it. -/

inductive CryptoError where
  | invalidPoint
  | keyLength
  | macCheckFailed
  | pointAtInfinity
  | malformedPayload
  deriving DecidableEq

/-- `rx_to_ry(Rx, curve)`: candidate square root by exponentiation with
`(p+1)/4`, verification, then canonicalisation to the even root. -/
def rx_to_ry (Rx : ℕ) : Except CryptoError ℕ :=
  let Ryy := (Rx ^ 3 + A * Rx + B) % P
  let Ry := powMod Ryy ((P + 1) / 4) P
  if Ry ^ 2 % P ≠ Ryy then .error .invalidPoint
  else .ok (if Ry % 2 ≠ 0 then P - Ry else Ry)

theorem cast_powMod (a e m : ℕ) : ((powMod a e m : ℕ) : ZMod m) = (a : ZMod m) ^ e := by
  rw [powMod_eq, ZMod.natCast_mod]
  push_cast
  ring

theorem natLt_cast_inj {a b : ℕ} (ha : a < P) (hb : b < P) (h : (a : ZMod P) = b) : a = b := by
  have h' := congrArg ZMod.val h
  rwa [ZMod.val_cast_of_lt ha, ZMod.val_cast_of_lt hb] at h'

theorem rx_to_ry_ok_sound {x y : ℕ} (h : rx_to_ry x = .ok y) :
    onCurveXY (x : ZMod P) (y : ZMod P) ∧ y < P ∧ y % 2 = 0 := by
  have hP0 : 0 < P := by decide
  have hP2 : P % 2 = 1 := by decide
  simp only [rx_to_ry] at h
  set Ryy := (x ^ 3 + A * x + B) % P with hRyy
  set Ry := powMod Ryy ((P + 1) / 4) P with hRy
  by_cases hc : Ry ^ 2 % P ≠ Ryy
  · rw [if_pos hc] at h
    simp at h
  · rw [if_neg hc] at h
    push_neg at hc
    simp only [Except.ok.injEq] at h
    subst h
    have hRyP : Ry < P := by
      rw [hRy, powMod_eq]
      exact Nat.mod_lt _ hP0
    have h1 : ((Ry : ℕ) : ZMod P) ^ 2 =
        (x : ZMod P) ^ 3 + ((A : ℕ) : ZMod P) * (x : ZMod P) + ((B : ℕ) : ZMod P) := by
      have h0 := congrArg (fun t : ℕ => (t : ZMod P)) hc
      simp only at h0
      rw [ZMod.natCast_mod, ZMod.natCast_mod] at h0
      push_cast at h0
      exact h0
    by_cases hpar : Ry % 2 ≠ 0
    · rw [if_pos hpar]
      have hRy0 : 0 < Ry := by omega
      refine ⟨?_, by omega, by omega⟩
      unfold onCurveXY
      have hsub : ((P - Ry : ℕ) : ZMod P) = -((Ry : ℕ) : ZMod P) := by
        rw [Nat.cast_sub (le_of_lt hRyP), ZMod.natCast_self]
        ring
      rw [hsub, neg_sq]
      exact h1
    · rw [if_neg hpar]
      push_neg at hpar
      refine ⟨?_, hRyP, hpar⟩
      unfold onCurveXY
      exact h1

theorem rx_to_ry_complete {x : ℕ}
    (hsq : IsSquare ((x : ZMod P) ^ 3 + ((A : ℕ) : ZMod P) * (x : ZMod P) + ((B : ℕ) : ZMod P))) :
    ∃ y, rx_to_ry x = .ok y := by
  have hP0 : 0 < P := by decide
  simp only [rx_to_ry]
  set Ryy := (x ^ 3 + A * x + B) % P with hRyy
  set Ry := powMod Ryy ((P + 1) / 4) P with hRy
  suffices hcheck : Ry ^ 2 % P = Ryy by
    rw [if_neg fun hne => hne hcheck]
    exact ⟨_, rfl⟩
  have hcastRyy : ((Ryy : ℕ) : ZMod P) =
      (x : ZMod P) ^ 3 + ((A : ℕ) : ZMod P) * (x : ZMod P) + ((B : ℕ) : ZMod P) := by
    rw [hRyy, ZMod.natCast_mod]
    push_cast
    ring
  obtain ⟨z, hz⟩ := hsq
  have hzRyy : ((Ryy : ℕ) : ZMod P) = z * z := by rw [hcastRyy, hz]
  have hcastRy : ((Ry : ℕ) : ZMod P) = ((Ryy : ℕ) : ZMod P) ^ ((P + 1) / 4) := by
    rw [hRy, cast_powMod]
  have hlt1 : Ry ^ 2 % P < P := Nat.mod_lt _ hP0
  have hlt2 : Ryy < P := by rw [hRyy]; exact Nat.mod_lt _ hP0
  by_cases hz0 : z = 0
  · subst hz0
    have hc0 : ((Ryy : ℕ) : ZMod P) = 0 := by rw [hzRyy]; ring
    have hRyy0 : Ryy = 0 := by
      apply natLt_cast_inj hlt2 hP0
      rw [hc0]
      norm_cast
    have hRy0 : Ry = 0 := by
      have h1 := powMod_eq 0 ((P + 1) / 4) P
      have h2 : (0 : ℕ) ^ ((P + 1) / 4) = 0 := Nat.zero_pow (by decide : 0 < (P + 1) / 4)
      rw [hRy, hRyy0, h1, h2, Nat.zero_mod]
    rw [hRy0, hRyy0]
    decide
  · have hfermat : z ^ (P - 1) = 1 := ZMod.pow_card_sub_one_eq_one hz0
    have hkey : ((Ry : ℕ) : ZMod P) ^ 2 = ((Ryy : ℕ) : ZMod P) := by
      rw [hcastRy, hzRyy, show z * z = z ^ 2 from (sq z).symm]
      calc ((z ^ 2) ^ ((P + 1) / 4)) ^ 2
          = z ^ (2 * ((P + 1) / 4 * 2)) := by rw [← pow_mul, ← pow_mul]
        _ = z ^ (P - 1 + 2) := by rw [show 2 * ((P + 1) / 4 * 2) = P - 1 + 2 by decide]
        _ = z ^ (P - 1) * z ^ 2 := pow_add z _ 2
        _ = z ^ 2 := by rw [hfermat, one_mul]
    apply natLt_cast_inj hlt1 hlt2
    rw [ZMod.natCast_mod]
    push_cast
    exact hkey

theorem rx_to_ry_cases (x : ℕ) :
    (∃ y, rx_to_ry x = .ok y) ∨ rx_to_ry x = .error .invalidPoint := by
  simp only [rx_to_ry]
  by_cases hc : powMod ((x ^ 3 + A * x + B) % P) ((P + 1) / 4) P ^ 2 % P ≠
      (x ^ 3 + A * x + B) % P
  · right
    rw [if_pos hc]
  · left
    rw [if_neg hc]
    exact ⟨_, rfl⟩

/-! ### AES-EAX (PyCryptodome `AES.MODE_EAX`, 16-byte tag)

The AES-256 block permutation itself lives in PyCryptodome; it is abstracted
as a parameter `E : key → block → block` on 128-bit blocks (naturals
`< 2^128`).  EAX mode — CMAC/OMAC with tweak blocks 0/1/2, CTR keystream,
tag xor — is modelled concretely, so the tag recomputation and the
fail-closed comparison of `decrypt_and_verify` are part of the model. -/

/-- GF(2^128) doubling used to derive the CMAC subkeys. -/
def dbl (x : ℕ) : ℕ :=
  if x < 2 ^ 127 then 2 * x else ((2 * x) % 2 ^ 128) ^^^ 0x87

/-- Split a byte string into 16-byte blocks as big-endian naturals. -/
def toBlocks : ℕ → List ℕ → List ℕ
  | 0, _ => []
  | _ + 1, [] => []
  | f + 1, l => bytesToNatBE (l.take 16) :: toBlocks f (l.drop 16)

/-- CBC chaining `y ← E (y xor block)`. -/
def cbc (E : ℕ → ℕ) : ℕ → List ℕ → ℕ
  | y, [] => y
  | y, b :: bs => cbc E (E (y ^^^ b)) bs

/-- xor a subkey onto the final block. -/
def xorLast (k : ℕ) : List ℕ → List ℕ
  | [] => []
  | [b] => [b ^^^ k]
  | b :: bs => b :: xorLast k bs

/-- CMAC padding: pad with `0x80 00…00` unless the message is a nonempty
whole number of blocks; the flag selects the subkey. -/
def omacPad (msg : List ℕ) : List ℕ × Bool :=
  if msg ≠ [] ∧ msg.length % 16 = 0 then (msg, true)
  else (msg ++ 128 :: List.replicate (15 - msg.length % 16) 0, false)

/-- OMAC/CMAC of a byte string. -/
def omac (E : ℕ → ℕ) (msg : List ℕ) : ℕ :=
  let pr := omacPad msg
  let sub := if pr.2 then dbl (E 0) else dbl (dbl (E 0))
  cbc E 0 (xorLast sub (toBlocks (pr.1.length + 16) pr.1))

/-- EAX's `OMAC_K([t]₁₆ ∥ m)` with tweak block `t`. -/
def omacT (E : ℕ → ℕ) (t : ℕ) (m : List ℕ) : ℕ :=
  omac E (natToBytesBE 16 t ++ m)

/-- CTR keystream blocks from an initial 128-bit counter. -/
def ctrBlocks (E : ℕ → ℕ) : ℕ → ℕ → List ℕ
  | _, 0 => []
  | c, k + 1 => E c :: ctrBlocks E ((c + 1) % 2 ^ 128) k

/-- `len` bytes of CTR keystream. -/
def keystream (E : ℕ → ℕ) (n0 len : ℕ) : List ℕ :=
  (((ctrBlocks E n0 ((len + 15) / 16)).map (natToBytesBE 16)).flatten).take len

/-- EAX `encrypt_and_digest`: ciphertext and 16-byte tag. -/
def eaxEnc (E : ℕ → ℕ) (nonce data : List ℕ) : List ℕ × List ℕ :=
  let n0 := omacT E 0 nonce
  let h0 := omacT E 1 []
  let c := List.zipWith (· ^^^ ·) data (keystream E n0 data.length)
  (c, natToBytesBE 16 (n0 ^^^ omacT E 2 c ^^^ h0))

/-- EAX `decrypt_and_verify`: recompute the tag over the ciphertext, compare,
fail closed with PyCryptodome's `ValueError("MAC check failed")`. -/
def eaxDec (E : ℕ → ℕ) (nonce data tag : List ℕ) : Except CryptoError (List ℕ) :=
  let n0 := omacT E 0 nonce
  let h0 := omacT E 1 []
  if natToBytesBE 16 (n0 ^^^ omacT E 2 data ^^^ h0) = tag then
    .ok (List.zipWith (· ^^^ ·) data (keystream E n0 data.length))
  else
    .error .macCheckFailed

/-- `encrypt_aes_eax(data, nonce, key)` of the source. -/
def encrypt_aes_eax (E : List ℕ → ℕ → ℕ) (data nonce key : List ℕ) :
    Except CryptoError (List ℕ × List ℕ) :=
  if key.length ≠ 32 then .error .keyLength
  else .ok (eaxEnc (E key) nonce data)

/-- `decrypt_aes_eax(data, tag, nonce, key)` of the source. -/
def decrypt_aes_eax (E : List ℕ → ℕ → ℕ) (data tag nonce key : List ℕ) :
    Except CryptoError (List ℕ) :=
  if key.length ≠ 32 then .error .keyLength
  else eaxDec (E key) nonce data tag

theorem keystream_length (E : ℕ → ℕ) (n0 len : ℕ) : (keystream E n0 len).length = len := by
  rw [keystream, List.length_take]
  have hblocks : ∀ (k : ℕ) (c : ℕ),
      ((((ctrBlocks E c k).map (natToBytesBE 16)).flatten).length) = 16 * k := by
    intro k
    induction k with
    | zero => intro c; rfl
    | succ k ih =>
      intro c
      simp only [ctrBlocks, List.map_cons, List.flatten_cons, List.length_append,
        natToBytesBE_length, ih]
      ring
  rw [hblocks]
  omega

theorem zipWith_xor_cancel (a : List ℕ) : ∀ ks : List ℕ, a.length ≤ ks.length →
    List.zipWith (· ^^^ ·) (List.zipWith (· ^^^ ·) a ks) ks = a := by
  induction a with
  | nil => intro ks _; simp
  | cons x xs ih =>
    intro ks hks
    cases ks with
    | nil => simp at hks
    | cons k kt =>
      simp only [List.zipWith_cons_cons, Nat.xor_cancel_right]
      rw [ih kt (by simpa using hks)]

theorem eaxDec_eaxEnc (E : ℕ → ℕ) (nonce data : List ℕ) :
    eaxDec E nonce (eaxEnc E nonce data).1 (eaxEnc E nonce data).2 = .ok data := by
  have hc : ((eaxEnc E nonce data).1).length = data.length := by
    simp only [eaxEnc, List.length_zipWith, keystream_length]
    omega
  simp only [eaxEnc, eaxDec] at hc ⊢
  rw [if_pos trivial, hc, zipWith_xor_cancel data _ (by rw [keystream_length])]

/-! ### The encrypt/decrypt pipeline

`hkdf` abstracts the `cryptography` package's
`HKDF(SHA256, length=32, salt=None, info=b'').derive`; `E` abstracts the
AES-256 block cipher keyed by the 32-byte HKDF output; `calcR` abstracts the
collaborator `calculate_r`.  `calculate_r` lives in
`FMDNCrypto/eid_generator.py`, which is not part of the sources here; it is
modelled from the spec: an external deterministic function
`calculate_r(identityKey, timeCounter) -> scalar`. -/

/-- `int.from_bytes(random, byteorder='big', signed=True) % curve.order`:
the ephemeral scalar of `encrypt`. -/
def sOf (random : List ℕ) : ℤ :=
  signedBE random % (N : ℕ)

/-- `point.x().to_bytes(20, 'big')`: fails on the point at infinity, whose
`x()` is `None` (`AttributeError` in Python). -/
def xBytes (p : EPoint) : Except CryptoError (List ℕ) :=
  match p with
  | none => .error .pointAtInfinity
  | some q => .ok (natToBytesBE 20 q.1.val)

/-- The 16-byte EAX nonce as a function of the two raw x-coordinate
integers: low 8 bytes of each 20-byte big-endian encoding. -/
def nonceOf (Rx Sx : ℕ) : List ℕ :=
  (natToBytesBE 20 Rx).drop 12 ++ (natToBytesBE 20 Sx).drop 12

/-- `encrypt(message, random, eid)` of the source: scalar `s` from the signed
seed, `S = s·G`, reconstruct `R` from the `eid` value, HKDF of `(s·R).x`,
nonce from the low bytes of `Rx` and `Sx`, AES-EAX, output
`(ciphertext ‖ tag, Sx bytes)`.  Pure locals of the Python are inlined;
the fallible steps are sequenced with `Except.bind` in source order. -/
def encrypt (hkdf : List ℕ → List ℕ) (E : List ℕ → ℕ → ℕ)
    (message random eid : List ℕ) : Except CryptoError (List ℕ × List ℕ) :=
  (rx_to_ry (bytesToNatBE eid)).bind fun Ry =>
    (xBytes (eSmul (sOf random).toNat
        (some ((bytesToNatBE eid : ZMod P), (Ry : ZMod P))))).bind fun ikm =>
      (xBytes (eSmul (sOf random).toNat eG)).bind fun SxBytes =>
        (encrypt_aes_eax E message
            ((natToBytesBE 20 (bytesToNatBE eid)).drop 12 ++ SxBytes.drop 12)
            (hkdf ikm)).bind fun pr =>
          .ok (pr.1 ++ pr.2, SxBytes)

/-- `decrypt(identity_key, encryptedAndTag, Sx, beacon_time_counter)` of the
source: split off the 16-byte tag, `r = calculate_r(...)`, `R = r·G`,
reconstruct `S` from the `Sx` value, HKDF of `(r·S).x`, nonce from the low
bytes of `R.x` and `Sx`, AES-EAX decrypt-and-verify. -/
def decrypt (hkdf : List ℕ → List ℕ) (E : List ℕ → ℕ → ℕ) (calcR : List ℕ → ℕ → ℕ)
    (identity_key encryptedAndTag Sx : List ℕ) (beacon_time_counter : ℕ) :
    Except CryptoError (List ℕ) :=
  (rx_to_ry (bytesToNatBE Sx)).bind fun Sy =>
    (xBytes (eSmul (calcR identity_key beacon_time_counter)
        (some ((bytesToNatBE Sx : ZMod P), (Sy : ZMod P))))).bind fun ikm =>
      (xBytes (eSmul (calcR identity_key beacon_time_counter) eG)).bind fun RxBytes =>
        decrypt_aes_eax E
          (encryptedAndTag.take (encryptedAndTag.length - 16))
          (encryptedAndTag.drop (encryptedAndTag.length - 16))
          (RxBytes.drop 12 ++ (natToBytesBE 20 (bytesToNatBE Sx)).drop 12)
          (hkdf ikm)

theorem except_bind_ok {ε α β : Type} {e : Except ε α} {f : α → Except ε β} {b : β}
    (h : e.bind f = .ok b) : ∃ a, e = .ok a ∧ f a = .ok b := by
  cases e with
  | error err => simp [Except.bind] at h
  | ok a => exact ⟨a, rfl, h⟩

theorem except_bind_eq {ε α β : Type} {e : Except ε α} {a : α} (h : e = .ok a)
    (f : α → Except ε β) : e.bind f = f a := by
  rw [h]
  rfl

theorem except_bind_error {ε α β : Type} {e : Except ε α} {err : ε} (h : e = .error err)
    (f : α → Except ε β) : e.bind f = .error err := by
  rw [h]
  rfl

theorem xBytes_ok_inv {p : EPoint} {b : List ℕ} (h : xBytes p = .ok b) :
    ∃ q : ZMod P × ZMod P, p = some q ∧ b = natToBytesBE 20 q.1.val := by
  cases p with
  | none => simp [xBytes] at h
  | some q => exact ⟨q, rfl, (Except.ok.inj h).symm⟩

/-! ### The ECDH core: reconstruction up to sign, and x-coordinate agreement -/

theorem xOf_eNeg (p : EPoint) : xOf (eNeg p) = xOf p := by
  rcases p with _ | ⟨x, y⟩ <;> rfl

theorem cast_val_eq (x : ZMod P) : ((x.val : ℕ) : ZMod P) = x :=
  ZMod.natCast_zmod_val x

/-- Reconstruction succeeds on the x-coordinate of any on-curve point. -/
theorem reconstruct_exists {x y : ZMod P} (h : onCurveXY x y) :
    ∃ y' : ℕ, rx_to_ry x.val = .ok y' := by
  apply rx_to_ry_complete
  rw [cast_val_eq]
  simp only [onCurveXY] at h
  exact ⟨y, by rw [← h]; ring⟩

/-- The reconstructed point is the original point or its negation. -/
theorem reconstruct_pm {x y : ZMod P} {y' : ℕ} (h : onCurveXY x y)
    (hy' : rx_to_ry x.val = .ok y') :
    some (x, (y' : ZMod P)) = (some (x, y) : EPoint) ∨
    some (x, (y' : ZMod P)) = eNeg (some (x, y)) := by
  obtain ⟨hcurve, -, -⟩ := rx_to_ry_ok_sound hy'
  rw [cast_val_eq] at hcurve
  simp only [onCurveXY] at h hcurve
  have hsq2 : ((y' : ℕ) : ZMod P) ^ 2 = y ^ 2 := hcurve.trans h.symm
  have hfactor : (((y' : ℕ) : ZMod P) - y) * (((y' : ℕ) : ZMod P) + y) = 0 := by
    linear_combination hsq2
  rcases mul_eq_zero.mp hfactor with h0 | h0
  · left
    have hq : ((y' : ℕ) : ZMod P) = y := by linear_combination h0
    rw [hq]
  · right
    have hq : ((y' : ℕ) : ZMod P) = -y := by linear_combination h0
    simp only [eNeg, hq]

theorem xOf_absP_neg (p : W.Point) : xOf (absP (-p)) = xOf (absP p) := by
  rw [absP_neg, xOf_eNeg]

/-- ECDH symmetry through reconstructed points: multiplying the reconstructed
peer point by the own scalar yields the same x-coordinate on both sides. -/
theorem sharedSecretX {r s : ℕ} {Sx Sy Rx2 Ry2 : ZMod P} {Sy' Ry' : ℕ}
    (hS : eSmul s eG = some (Sx, Sy)) (hR : eSmul r eG = some (Rx2, Ry2))
    (hSrec : rx_to_ry Sx.val = .ok Sy') (hRrec : rx_to_ry Rx2.val = .ok Ry') :
    xOf (eSmul r (some (Sx, (Sy' : ZMod P)))) =
      xOf (eSmul s (some (Rx2, (Ry' : ZMod P)))) := by
  rw [← absP_GW, eSmul_absP] at hS hR
  obtain ⟨hcS, hSW⟩ := absP_some_inv hS
  obtain ⟨hcR, hRW⟩ := absP_some_inv hR
  have hmuls : ∀ t : ℕ, ∀ p : W.Point, eSmul t (absP p) = absP (t • p) := fun t p =>
    eSmul_absP t p
  have hcomm : ((r * s) • GW : W.Point) = (s * r) • GW := by rw [Nat.mul_comm]
  rcases reconstruct_pm hcS hSrec with hpm | hpm <;>
    rcases reconstruct_pm hcR hRrec with hpm2 | hpm2 <;>
    rw [hpm, hpm2, ← hS, ← hR]
  · rw [hmuls, hmuls, ← mul_nsmul', ← mul_nsmul', hcomm]
  · rw [← absP_neg, hmuls, hmuls, neg_nsmul, xOf_absP_neg, ← mul_nsmul', ← mul_nsmul', hcomm]
  · rw [← absP_neg, hmuls, hmuls, neg_nsmul, xOf_absP_neg, ← mul_nsmul', ← mul_nsmul', hcomm]
  · rw [← absP_neg, ← absP_neg, hmuls, hmuls, neg_nsmul, neg_nsmul, xOf_absP_neg,
      xOf_absP_neg, ← mul_nsmul', ← mul_nsmul', hcomm]

theorem xBytes_congr {p q : EPoint} (h : xOf p = xOf q) : xBytes p = xBytes q := by
  rcases p with _ | ⟨x, y⟩ <;> rcases q with _ | ⟨x2, y2⟩
  · rfl
  · simp [xOf] at h
  · simp [xOf] at h
  · have hx : x = x2 := by simpa [xOf] using h
    rw [hx]
    rfl

theorem encrypt_aes_eax_ok (E : List ℕ → ℕ → ℕ) (data nonce key : List ℕ)
    (hkey : key.length = 32) :
    encrypt_aes_eax E data nonce key = .ok (eaxEnc (E key) nonce data) := by
  simp only [encrypt_aes_eax]
  rw [if_neg (by rw [hkey]; exact fun hne => hne rfl)]

theorem decrypt_aes_eax_ok (E : List ℕ → ℕ → ℕ) (data tag nonce key : List ℕ)
    (hkey : key.length = 32) :
    decrypt_aes_eax E data tag nonce key = eaxDec (E key) nonce data tag := by
  simp only [decrypt_aes_eax]
  rw [if_neg (by rw [hkey]; exact fun hne => hne rfl)]

theorem val_lt_P (x : ZMod P) : x.val < P :=
  ZMod.val_lt x

theorem bytes20_roundtrip {v : ℕ} (h : v < P) : bytesToNatBE (natToBytesBE 20 v) = v :=
  bytesToNatBE_natToBytesBE 20 v (Nat.lt_trans h (by decide))

/-- C1: round trip.  For every message `m`, 20-byte seed `r0`, identity key
`K` and counter `t`, if `encrypt(m, r0, eid)` returns `(payload, Sx)` and
`calculate_r(K, t)` yields a scalar `r` whose point `r·G` has x-coordinate
equal to the integer value of `eid`, then
`decrypt(K, payload, Sx, t)` returns `m`. -/
theorem C1_round_trip (hkdf : List ℕ → List ℕ) (E : List ℕ → ℕ → ℕ)
    (calcR : List ℕ → ℕ → ℕ)
    (hkLen : ∀ ikm, (hkdf ikm).length = 32)
    (K : List ℕ) (t : ℕ) (m r0 eid : List ℕ) (h20 : r0.length = 20)
    (payload SxB : List ℕ)
    (henc : encrypt hkdf E m r0 eid = .ok (payload, SxB))
    (Rx2 Ry2 : ZMod P)
    (hrG : eSmul (calcR K t) eG = some (Rx2, Ry2))
    (hrx : Rx2.val = bytesToNatBE eid) :
    decrypt hkdf E calcR K payload SxB t = .ok m := by
  unfold encrypt at henc
  obtain ⟨Ry, hry, henc⟩ := except_bind_ok henc
  obtain ⟨ikm, hikm, henc⟩ := except_bind_ok henc
  obtain ⟨SxBytes, hsb, henc⟩ := except_bind_ok henc
  obtain ⟨pr, haes, henc⟩ := except_bind_ok henc
  have hpair := Except.ok.inj henc
  rw [Prod.mk.injEq] at hpair
  obtain ⟨hpay, hSxB⟩ := hpair
  obtain ⟨q1, hTpt, hikmval⟩ := xBytes_ok_inv hikm
  obtain ⟨q2, hSpt, hsbval⟩ := xBytes_ok_inv hsb
  -- identify the AEAD call
  rw [hsbval] at haes
  rw [encrypt_aes_eax_ok E m _ _ (hkLen _)] at haes
  replace haes := Except.ok.inj haes
  -- facts about the sender's ephemeral point
  have hSpt2 : eSmul (sOf r0).toNat eG = some (q2.1, q2.2) := by
    rw [hSpt]
  have hS' := hSpt2
  rw [← absP_GW, eSmul_absP] at hS'
  obtain ⟨hcS, -⟩ := absP_some_inv hS'
  obtain ⟨Sy', hSy'⟩ := reconstruct_exists hcS
  have hSxval : bytesToNatBE (natToBytesBE 20 q2.1.val) = q2.1.val :=
    bytes20_roundtrip (val_lt_P q2.1)
  have hcastR : ((bytesToNatBE eid : ℕ) : ZMod P) = Rx2 := by
    rw [← hrx, cast_val_eq]
  have hTpt2 : eSmul (sOf r0).toNat (some (Rx2, (Ry : ZMod P))) = some (q1.1, q1.2) := by
    rw [← hcastR, hTpt]
  have hry2 : rx_to_ry Rx2.val = .ok Ry := by rw [hrx]; exact hry
  have hxeq := sharedSecretX hSpt2 hrG hSy' hry2
  have hikmd : xBytes (eSmul (calcR K t) (some (q2.1, (Sy' : ZMod P)))) = .ok ikm := by
    rw [xBytes_congr hxeq, hTpt2, hikmval]
    rfl
  have hRb : xBytes (eSmul (calcR K t) eG) = .ok (natToBytesBE 20 Rx2.val) := by
    rw [hrG]
    rfl
  -- run decrypt
  rw [← hpay, ← hSxB, hsbval]
  unfold decrypt
  rw [hSxval, cast_val_eq]
  rw [except_bind_eq hSy']
  rw [except_bind_eq hikmd]
  rw [except_bind_eq hRb]
  -- split the payload back into ciphertext and tag
  rw [← haes]
  have htg : ((eaxEnc (E (hkdf ikm))
      ((natToBytesBE 20 (bytesToNatBE eid)).drop 12 ++ (natToBytesBE 20 q2.1.val).drop 12)
      m).2).length = 16 := by
    simp only [eaxEnc]
    rw [natToBytesBE_length]
  rw [List.length_append, htg]
  rw [List.take_left' (by omega), List.drop_left' (by omega)]
  rw [decrypt_aes_eax_ok E _ _ _ _ (hkLen _), hrx]
  exact eaxDec_eaxEnc _ _ m

/-! ### Concrete instances used by the witnesses -/

/-- Constant HKDF used for concrete runs. -/
def hkW : List ℕ → List ℕ := fun _ => List.replicate 32 0

/-- Identity block cipher used for concrete runs. -/
def EW : List ℕ → ℕ → ℕ := fun _ b => b

/-- Constant `calculate_r` used for concrete runs. -/
def crW : List ℕ → ℕ → ℕ := fun _ _ => 1

/-- `eid` whose value is the base point's x-coordinate. -/
def eidW : List ℕ := natToBytesBE 20 Gx

/-- 20-byte seed with value 1. -/
def r0W : List ℕ := natToBytesBE 20 1

/-- A concrete encryption run. -/
def encW : Except CryptoError (List ℕ × List ℕ) := encrypt hkW EW [] r0W eidW

/-- Payload of the concrete run. -/
def payloadW : List ℕ :=
  match encW with
  | .ok pr => pr.1
  | .error _ => []

/-- Transmitted x-coordinate bytes of the concrete run. -/
def SxW : List ℕ :=
  match encW with
  | .ok pr => pr.2
  | .error _ => []

/-- Witness for C1 at a concrete input. -/
theorem C1_round_trip_witness : decrypt hkW EW crW [] payloadW SxW 0 = .ok [] :=
  C1_round_trip hkW EW crW (fun _ => rfl) [] 0 [] r0W eidW (by rfl) payloadW SxW
    (by rfl) ((Gx : ℕ) : ZMod P) ((Gy : ℕ) : ZMod P) (by rfl) (by decide)

/-- Counterexample to C2 as stated: on a 10-byte payload, `decrypt` does
not raise a malformed-payload error; it attempts authentication and fails
with PyCryptodome's MAC-check error. -/
theorem C2_counterexample :
    decrypt hkW EW crW [] (List.replicate 10 0) eidW 0 = .error .macCheckFailed ∧
    ¬decrypt hkW EW crW [] (List.replicate 10 0) eidW 0 = .error .malformedPayload := by
  constructor
  · rfl
  · intro hcon
    have h2 : (Except.error CryptoError.macCheckFailed : Except CryptoError (List ℕ)) =
        .error .malformedPayload :=
      (show decrypt hkW EW crW [] (List.replicate 10 0) eidW 0 =
        .error .macCheckFailed from rfl).symm.trans hcon
    exact CryptoError.noConfusion (Except.error.inj h2)

/-- C2 (amended): the source has no payload-length check.  For a payload
shorter than the 16-byte tag, the slice yields an empty ciphertext and a
short tag, authentication is attempted, and since the recomputed tag is
always exactly 16 bytes it can never equal the shorter received tag, so
`decrypt` fails with the authentication (MAC check) error — provided the
earlier point steps succeed and the key has length 32. -/
theorem C2_short_payload (hkdf : List ℕ → List ℕ) (E : List ℕ → ℕ → ℕ)
    (calcR : List ℕ → ℕ → ℕ) (hkLen : ∀ ikm, (hkdf ikm).length = 32)
    (K payload Sx : List ℕ) (t : ℕ) (hshort : payload.length < 16)
    {Sy' : ℕ} (h1 : rx_to_ry (bytesToNatBE Sx) = .ok Sy')
    {Tx Ty Rx2 Ry2 : ZMod P}
    (h2 : eSmul (calcR K t) (some ((bytesToNatBE Sx : ZMod P), (Sy' : ZMod P))) =
      some (Tx, Ty))
    (h3 : eSmul (calcR K t) eG = some (Rx2, Ry2)) :
    decrypt hkdf E calcR K payload Sx t = .error .macCheckFailed := by
  unfold decrypt
  rw [except_bind_eq h1]
  rw [except_bind_eq (show xBytes (eSmul (calcR K t)
      (some ((bytesToNatBE Sx : ZMod P), (Sy' : ZMod P)))) = .ok (natToBytesBE 20 Tx.val)
    by rw [h2]; rfl)]
  rw [except_bind_eq (show xBytes (eSmul (calcR K t) eG) = .ok (natToBytesBE 20 Rx2.val)
    by rw [h3]; rfl)]
  rw [decrypt_aes_eax_ok E _ _ _ _ (hkLen _)]
  simp only [eaxDec]
  rw [if_neg ?_]
  intro hcon
  have hlen := congrArg List.length hcon
  rw [natToBytesBE_length, List.length_drop] at hlen
  omega

/-- Witness for the amended C2 at a concrete input. -/
theorem C2_short_payload_witness :
    decrypt hkW EW crW [] (List.replicate 10 0) eidW 0 = .error .macCheckFailed :=
  C2_short_payload hkW EW crW (fun _ => rfl) [] (List.replicate 10 0) eidW 0
    (by decide) (by rfl) (by rfl) (by rfl)

/-- C5: the AES wrappers raise the key-length error exactly when the key is
not 32 bytes, for all other arguments; with a 32-byte key neither wrapper
can produce that error. -/
theorem C5_key_length (E : List ℕ → ℕ → ℕ) (data nonce tag key : List ℕ) :
    (encrypt_aes_eax E data nonce key = .error .keyLength ↔ key.length ≠ 32) ∧
    (decrypt_aes_eax E data tag nonce key = .error .keyLength ↔ key.length ≠ 32) := by
  constructor
  · constructor
    · intro h
      intro hlen
      rw [encrypt_aes_eax_ok E data nonce key hlen] at h
      exact Except.noConfusion h
    · intro h
      unfold encrypt_aes_eax
      rw [if_pos h]
  · constructor
    · intro h
      intro hlen
      rw [decrypt_aes_eax_ok E data tag nonce key hlen] at h
      simp only [eaxDec] at h
      by_cases hc : natToBytesBE 16 (omacT (E key) 0 nonce ^^^ omacT (E key) 2 data ^^^
          omacT (E key) 1 []) = tag
      · rw [if_pos hc] at h
        exact Except.noConfusion h
      · rw [if_neg hc] at h
        exact CryptoError.noConfusion (Except.error.inj h)
    · intro h
      unfold decrypt_aes_eax
      rw [if_pos h]

/-- C7: the ephemeral scalar of `encrypt` is the seed interpreted as a
two's-complement signed big-endian integer reduced mod the order `N`; it
always lies in `[0, N)`, and for a seed with its top bit set it differs
from the reduction of the unsigned interpretation. -/
theorem C7_signed_scalar (random : List ℕ) (h20 : random.length = 20) :
    sOf random = (if 2 ^ 159 ≤ bytesToNatBE random
        then (bytesToNatBE random : ℤ) - 2 ^ 160
        else (bytesToNatBE random : ℤ)) % (N : ℤ) ∧
    0 ≤ sOf random ∧ sOf random < (N : ℤ) ∧
    (2 ^ 159 ≤ bytesToNatBE random →
      sOf random ≠ (bytesToNatBE random : ℤ) % (N : ℤ)) := by
  have hN0 : (N : ℤ) ≠ 0 := by decide
  have hNpos : (0 : ℤ) < (N : ℤ) := by decide
  have hne : random ≠ [] := by
    intro hc
    rw [hc] at h20
    simp at h20
  have hform : sOf random = (if 2 ^ 159 ≤ bytesToNatBE random
      then (bytesToNatBE random : ℤ) - 2 ^ 160
      else (bytesToNatBE random : ℤ)) % (N : ℤ) := by
    unfold sOf signedBE
    rw [h20]
    rw [show 8 * 20 - 1 = 159 from rfl]
    by_cases hmsb : 2 ^ 159 ≤ bytesToNatBE random
    · rw [if_pos ⟨hmsb, hne⟩, if_pos hmsb]
    · rw [if_neg ?_, if_neg hmsb]
      intro hcon
      exact hmsb hcon.1
  refine ⟨hform, ?_, ?_, ?_⟩
  · unfold sOf
    exact Int.emod_nonneg _ hN0
  · unfold sOf
    exact Int.emod_lt_of_pos _ hNpos
  · intro hmsb heq
    rw [hform, if_pos hmsb] at heq
    have hmodeq : (bytesToNatBE random : ℤ) - 2 ^ 160 ≡ (bytesToNatBE random : ℤ)
        [ZMOD (N : ℤ)] := heq
    have hdvd := Int.ModEq.dvd hmodeq
    have h160 : (bytesToNatBE random : ℤ) - ((bytesToNatBE random : ℤ) - 2 ^ 160) =
        2 ^ 160 := by ring
    rw [h160] at hdvd
    have hdvdN : (N : ℤ) ∣ ((2 ^ 160 : ℕ) : ℤ) := by exact_mod_cast hdvd
    rw [Int.natCast_dvd_natCast] at hdvdN
    exact absurd hdvdN (by decide)

/-- Witness for C7 at a concrete top-bit-set seed. -/
theorem C7_signed_scalar_witness :
    sOf (128 :: List.replicate 19 0) = (if 2 ^ 159 ≤ bytesToNatBE (128 :: List.replicate 19 0)
        then (bytesToNatBE (128 :: List.replicate 19 0) : ℤ) - 2 ^ 160
        else (bytesToNatBE (128 :: List.replicate 19 0) : ℤ)) % (N : ℤ) ∧
    0 ≤ sOf (128 :: List.replicate 19 0) ∧
    sOf (128 :: List.replicate 19 0) < (N : ℤ) ∧
    (2 ^ 159 ≤ bytesToNatBE (128 :: List.replicate 19 0) →
      sOf (128 :: List.replicate 19 0) ≠
        (bytesToNatBE (128 :: List.replicate 19 0) : ℤ) % (N : ℤ)) :=
  C7_signed_scalar (128 :: List.replicate 19 0) (by decide)

/-- C10: a 20-byte seed whose signed value is divisible by the order makes
the ephemeral scalar zero; `s·G` is then the point at infinity, it has no
x-coordinate, and `encrypt` fails instead of returning a payload. -/
theorem C10_zero_scalar (hkdf : List ℕ → List ℕ) (E : List ℕ → ℕ → ℕ)
    (m seed eid : List ℕ) (h20 : seed.length = 20)
    (hzero : signedBE seed % (N : ℤ) = 0) :
    ∃ e, encrypt hkdf E m seed eid = .error e := by
  have hs : (sOf seed).toNat = 0 := by
    unfold sOf
    rw [hzero]
    rfl
  unfold encrypt
  rcases hcase : rx_to_ry (bytesToNatBE eid) with e | Ry
  · exact ⟨e, rfl⟩
  · refine ⟨.pointAtInfinity, ?_⟩
    have hnone : eSmul (sOf seed).toNat
        (some ((bytesToNatBE eid : ZMod P), (Ry : ZMod P))) = none := by
      rw [hs]
      rfl
    show Except.bind (xBytes (eSmul (sOf seed).toNat
        (some ((bytesToNatBE eid : ZMod P), (Ry : ZMod P))))) _ = _
    rw [hnone]
    rfl

/-- Witness for C10 at the all-zero seed. -/
theorem C10_zero_scalar_witness : ∃ e, encrypt hkW EW [] (List.replicate 20 0) eidW = .error e :=
  C10_zero_scalar hkW EW [] (List.replicate 20 0) eidW (by decide) (by decide)

/-- C3: for every `x` in `[0, p)`, `rx_to_ry` raises the invalid-point
`ValueError` exactly when `x³+ax+b mod p` is not a quadratic residue
modulo `p`; when it is a residue, the call succeeds. -/
theorem C3_invalid_point (x : ℕ) (hx : x < P) :
    (rx_to_ry x = .error .invalidPoint ↔
      ¬ IsSquare ((x : ZMod P) ^ 3 + ((A : ℕ) : ZMod P) * (x : ZMod P) + ((B : ℕ) : ZMod P))) ∧
    (IsSquare ((x : ZMod P) ^ 3 + ((A : ℕ) : ZMod P) * (x : ZMod P) + ((B : ℕ) : ZMod P)) →
      ∃ y, rx_to_ry x = .ok y) := by
  constructor
  · constructor
    · intro herr hsq
      obtain ⟨y, hy⟩ := rx_to_ry_complete hsq
      rw [hy] at herr
      exact Except.noConfusion herr
    · intro hnsq
      rcases rx_to_ry_cases x with ⟨y, hy⟩ | herr
      · exfalso
        apply hnsq
        have h := (rx_to_ry_ok_sound hy).1
        unfold onCurveXY at h
        exact ⟨(y : ZMod P), by rw [← h]; ring⟩
      · exact herr
  · exact fun hsq => rx_to_ry_complete hsq

/-- Witness for C3 at `x = Gx`. -/
theorem C3_invalid_point_witness :
    Gx < P ∧
    ((rx_to_ry Gx = .error .invalidPoint ↔
      ¬ IsSquare (((Gx : ℕ) : ZMod P) ^ 3 + ((A : ℕ) : ZMod P) * ((Gx : ℕ) : ZMod P) +
        ((B : ℕ) : ZMod P))) ∧
    (IsSquare (((Gx : ℕ) : ZMod P) ^ 3 + ((A : ℕ) : ZMod P) * ((Gx : ℕ) : ZMod P) +
        ((B : ℕ) : ZMod P)) →
      ∃ y, rx_to_ry Gx = .ok y)) :=
  ⟨by decide, C3_invalid_point Gx (by decide)⟩

/-- C4: for every `x` in `[0, p)` whose curve polynomial value is a
quadratic residue modulo `p`, `rx_to_ry` returns a `y` in `[0, p)` that is
even and satisfies `y² ≡ x³ + a·x + b (mod p)`. -/
theorem C4_even_root (x : ℕ) (hx : x < P)
    (hsq : IsSquare ((x : ZMod P) ^ 3 + ((A : ℕ) : ZMod P) * (x : ZMod P) + ((B : ℕ) : ZMod P))) :
    ∃ y, rx_to_ry x = .ok y ∧ y < P ∧ y % 2 = 0 ∧
      (y : ZMod P) ^ 2 =
        (x : ZMod P) ^ 3 + ((A : ℕ) : ZMod P) * (x : ZMod P) + ((B : ℕ) : ZMod P) := by
  obtain ⟨y, hy⟩ := rx_to_ry_complete hsq
  obtain ⟨hcurve, hlt, heven⟩ := rx_to_ry_ok_sound hy
  exact ⟨y, hy, hlt, heven, hcurve⟩

/-- Witness for C4 at `x = Gx`, with square root `Gy`. -/
theorem C4_even_root_witness :
    Gx < P ∧
    IsSquare (((Gx : ℕ) : ZMod P) ^ 3 + ((A : ℕ) : ZMod P) * ((Gx : ℕ) : ZMod P) +
      ((B : ℕ) : ZMod P)) ∧
    ∃ y, rx_to_ry Gx = .ok y ∧ y < P ∧ y % 2 = 0 ∧
      (y : ZMod P) ^ 2 =
        ((Gx : ℕ) : ZMod P) ^ 3 + ((A : ℕ) : ZMod P) * ((Gx : ℕ) : ZMod P) +
          ((B : ℕ) : ZMod P) := by
  have hsq : IsSquare (((Gx : ℕ) : ZMod P) ^ 3 + ((A : ℕ) : ZMod P) * ((Gx : ℕ) : ZMod P) +
      ((B : ℕ) : ZMod P)) := by
    have h := gOnCurve
    unfold onCurveXY at h
    exact ⟨((Gy : ℕ) : ZMod P), by rw [← h]; ring⟩
  exact ⟨by decide, hsq, C4_even_root Gx (by decide) hsq⟩

/-- C6: both `encrypt` and `decrypt` hand AES-EAX the nonce
`nonceOf Rx Sx` — the low 8 bytes of the 20-byte big-endian encoding of
`Rx` followed by the low 8 bytes of the 20-byte big-endian encoding of
`Sx` — a pure 16-byte function of the pair of x-coordinates only, so any
two calls agreeing on `(Rx, Sx)` use identical nonces. -/
theorem C6_nonce (hkdf : List ℕ → List ℕ) (E : List ℕ → ℕ → ℕ)
    (calcR : List ℕ → ℕ → ℕ) (m seed eid ik ct Sx : List ℕ) (t : ℕ)
    (Ry Sy : ℕ) (q2 qR : ZMod P × ZMod P)
    (hRy : rx_to_ry (bytesToNatBE eid) = .ok Ry)
    (hS : eSmul (sOf seed).toNat eG = some q2)
    (hSy : rx_to_ry (bytesToNatBE Sx) = .ok Sy)
    (hR : eSmul (calcR ik t) eG = some qR) :
    (∀ Rx Sxn : ℕ, (nonceOf Rx Sxn).length = 16) ∧
    encrypt hkdf E m seed eid =
      (xBytes (eSmul (sOf seed).toNat
          (some ((bytesToNatBE eid : ZMod P), (Ry : ZMod P))))).bind (fun ikm =>
        (encrypt_aes_eax E m (nonceOf (bytesToNatBE eid) q2.1.val)
            (hkdf ikm)).bind fun pr => .ok (pr.1 ++ pr.2, natToBytesBE 20 q2.1.val)) ∧
    decrypt hkdf E calcR ik ct Sx t =
      (xBytes (eSmul (calcR ik t)
          (some ((bytesToNatBE Sx : ZMod P), (Sy : ZMod P))))).bind fun ikm =>
        decrypt_aes_eax E (ct.take (ct.length - 16)) (ct.drop (ct.length - 16))
          (nonceOf qR.1.val (bytesToNatBE Sx)) (hkdf ikm) := by
  refine ⟨?_, ?_, ?_⟩
  · intro Rx Sxn
    simp only [nonceOf, List.length_append, List.length_drop, natToBytesBE_length]
  · have hxb : xBytes (eSmul (sOf seed).toNat eG) = .ok (natToBytesBE 20 q2.1.val) := by
      rw [hS]
      rfl
    unfold encrypt
    rw [except_bind_eq hRy]
    refine congrArg (Except.bind _) (funext fun ikm => ?_)
    rw [except_bind_eq hxb]
    unfold nonceOf
    rfl
  · have hxR : xBytes (eSmul (calcR ik t) eG) = .ok (natToBytesBE 20 qR.1.val) := by
      rw [hR]
      rfl
    unfold decrypt
    rw [except_bind_eq hSy]
    refine congrArg (Except.bind _) (funext fun ikm => ?_)
    rw [except_bind_eq hxR]
    unfold nonceOf
    rfl

/-- Witness for C6 at the base point on both sides. -/
theorem C6_nonce_witness :
    (rx_to_ry (bytesToNatBE eidW) = .ok Gy ∧
      eSmul (sOf r0W).toNat eG = some (((Gx : ℕ) : ZMod P), ((Gy : ℕ) : ZMod P)) ∧
      eSmul (crW [] 0) eG = some (((Gx : ℕ) : ZMod P), ((Gy : ℕ) : ZMod P))) ∧
    (nonceOf Gx Gx).length = 16 :=
  ⟨⟨by rfl, by rfl, by rfl⟩,
    (C6_nonce hkW EW crW [] r0W eidW [] [] eidW 0 Gy Gy
      (((Gx : ℕ) : ZMod P), ((Gy : ℕ) : ZMod P)) (((Gx : ℕ) : ZMod P), ((Gy : ℕ) : ZMod P))
      (by rfl) (by rfl) (by rfl) (by rfl)).1 Gx Gx⟩

/-- C9: the point reconstructed from an x-coordinate by `rx_to_ry` is the
original point or its negation, scalar multiplication gives the same
x-coordinate on either, and hence the two sides of the exchange derive
identical 20-byte HKDF inputs even when the sender's ephemeral point has
odd `y`. -/
theorem C9_x_agreement (r s : ℕ) (x y Rx2 Ry2 Sx2 Sy2 : ZMod P) (yr Syr Ryr : ℕ)
    (hxy : onCurveXY x y) (hrec : rx_to_ry x.val = .ok yr)
    (hS : eSmul s eG = some (Sx2, Sy2)) (hR : eSmul r eG = some (Rx2, Ry2))
    (hSrec : rx_to_ry Sx2.val = .ok Syr) (hRrec : rx_to_ry Rx2.val = .ok Ryr) :
    (some (x, (yr : ZMod P)) = (some (x, y) : EPoint) ∨
      some (x, (yr : ZMod P)) = eNeg (some (x, y))) ∧
    xOf (eSmul r (some (x, (yr : ZMod P)))) = xOf (eSmul r (some (x, y))) ∧
    xBytes (eSmul r (some (Sx2, (Syr : ZMod P)))) =
      xBytes (eSmul s (some (Rx2, (Ryr : ZMod P)))) := by
  refine ⟨reconstruct_pm hxy hrec, ?_, xBytes_congr (sharedSecretX hS hR hSrec hRrec)⟩
  rcases reconstruct_pm hxy hrec with hpm | hpm
  · rw [hpm]
  · rw [hpm]
    have hrep : (some (x, y) : EPoint) = absP (mkPoint x y hxy) := (absP_mkPoint x y hxy).symm
    rw [hrep, ← absP_neg, eSmul_absP, eSmul_absP, neg_nsmul, xOf_absP_neg]

/-- Witness for C9 at the base point with scalars `1`. -/
theorem C9_x_agreement_witness :
    onCurveXY ((Gx : ℕ) : ZMod P) ((Gy : ℕ) : ZMod P) ∧
    rx_to_ry (((Gx : ℕ) : ZMod P).val) = .ok Gy ∧
    xBytes (eSmul 1 (some (((Gx : ℕ) : ZMod P), ((Gy : ℕ) : ZMod P)))) =
      xBytes (eSmul 1 (some (((Gx : ℕ) : ZMod P), ((Gy : ℕ) : ZMod P)))) :=
  ⟨gOnCurve, by rfl,
    (C9_x_agreement 1 1 ((Gx : ℕ) : ZMod P) ((Gy : ℕ) : ZMod P)
      ((Gx : ℕ) : ZMod P) ((Gy : ℕ) : ZMod P) ((Gx : ℕ) : ZMod P) ((Gy : ℕ) : ZMod P)
      Gy Gy Gy gOnCurve (by rfl) (by rfl) (by rfl) (by rfl) (by rfl)).2.2⟩

/-! ### Single-bit tampering and the EAX tag check -/

/-- Flip bit `k` of byte `i`. -/
def flipByte (l : List ℕ) (i k : ℕ) : List ℕ :=
  l.set i (l.getD i 0 ^^^ 2 ^ k)

/-- Truncating block cipher used for concrete tamper runs. -/
def EW2 : List ℕ → ℕ → ℕ := fun _ b => b % 2 ^ 128

theorem dbl_lt (x : ℕ) : dbl x < 2 ^ 128 := by
  unfold dbl
  by_cases h : x < 2 ^ 127
  · rw [if_pos h]
    omega
  · rw [if_neg h]
    exact Nat.xor_lt_two_pow (Nat.mod_lt _ (by norm_num)) (by norm_num)

theorem cbc_lt (E : ℕ → ℕ) (hE1 : ∀ b, E b < 2 ^ 128) :
    ∀ (ms : List ℕ) (acc : ℕ), acc < 2 ^ 128 → cbc E acc ms < 2 ^ 128 := by
  intro ms
  induction ms with
  | nil => intro acc hacc; exact hacc
  | cons b bs ih =>
    intro acc hacc
    exact ih _ (hE1 _)

theorem cbc_append (E : ℕ → ℕ) (pre rest : List ℕ) :
    ∀ acc, cbc E acc (pre ++ rest) = cbc E (cbc E acc pre) rest := by
  induction pre with
  | nil => intro acc; rfl
  | cons b bs ih => intro acc; exact ih _

theorem cbc_acc_inj (E : ℕ → ℕ) (hE1 : ∀ b, E b < 2 ^ 128)
    (hE2 : ∀ a b, a < 2 ^ 128 → b < 2 ^ 128 → E a = E b → a = b) :
    ∀ (ms : List ℕ), (∀ b ∈ ms, b < 2 ^ 128) →
      ∀ acc acc', acc < 2 ^ 128 → acc' < 2 ^ 128 →
        cbc E acc ms = cbc E acc' ms → acc = acc' := by
  intro ms
  induction ms with
  | nil => intro _ acc acc' _ _ h; exact h
  | cons b bs ih =>
    intro hmem acc acc' hacc hacc' h
    have hb : b < 2 ^ 128 := hmem b (List.mem_cons_self b bs)
    have h1 : E (acc ^^^ b) = E (acc' ^^^ b) :=
      ih (fun x hx => hmem x (List.mem_cons_of_mem _ hx)) _ _ (hE1 _) (hE1 _) h
    have h2 : acc ^^^ b = acc' ^^^ b :=
      hE2 _ _ (Nat.xor_lt_two_pow hacc hb) (Nat.xor_lt_two_pow hacc' hb) h1
    have h3 := congrArg (fun t => t ^^^ b) h2
    simpa [Nat.xor_cancel_right] using h3

theorem cbc_single_diff (E : ℕ → ℕ) (hE1 : ∀ b, E b < 2 ^ 128)
    (hE2 : ∀ a b, a < 2 ^ 128 → b < 2 ^ 128 → E a = E b → a = b)
    (pre suf : List ℕ) (m m2 acc : ℕ) (hacc : acc < 2 ^ 128)
    (hm : m < 2 ^ 128) (hm2 : m2 < 2 ^ 128)
    (hsuf : ∀ b ∈ suf, b < 2 ^ 128) (hne : m ≠ m2) :
    cbc E acc (pre ++ m :: suf) ≠ cbc E acc (pre ++ m2 :: suf) := by
  intro heq
  rw [cbc_append, cbc_append] at heq
  have ha : cbc E acc pre < 2 ^ 128 := cbc_lt E hE1 pre acc hacc
  simp only [cbc] at heq
  have h1 : E (cbc E acc pre ^^^ m) = E (cbc E acc pre ^^^ m2) :=
    cbc_acc_inj E hE1 hE2 suf hsuf _ _ (hE1 _) (hE1 _) heq
  have h2 : cbc E acc pre ^^^ m = cbc E acc pre ^^^ m2 :=
    hE2 _ _ (Nat.xor_lt_two_pow ha hm) (Nat.xor_lt_two_pow ha hm2) h1
  apply hne
  calc m = cbc E acc pre ^^^ (cbc E acc pre ^^^ m) := (Nat.xor_cancel_left _ _).symm
    _ = cbc E acc pre ^^^ (cbc E acc pre ^^^ m2) := by rw [h2]
    _ = m2 := Nat.xor_cancel_left _ _

theorem getD_set_self (l : List ℕ) (i v : ℕ) (h : i < l.length) :
    (l.set i v).getD i 0 = v := by
  rw [List.getD_eq_getElem _ _ (by rw [List.length_set]; exact h)]
  exact List.getElem_set_self _

theorem getD_take (l : List ℕ) (n i : ℕ) (hi : i < n) (hl : i < l.length) :
    (l.take n).getD i 0 = l.getD i 0 := by
  have hlt : i < (l.take n).length := by
    rw [List.length_take]
    exact lt_min hi hl
  rw [List.getD_eq_getElem _ _ hlt, List.getD_eq_getElem _ _ hl, List.getElem_take]

theorem getD_drop (l : List ℕ) (n i : ℕ) (h : n + i < l.length) :
    (l.drop n).getD i 0 = l.getD (n + i) 0 := by
  have hlt : i < (l.drop n).length := by
    rw [List.length_drop]
    omega
  rw [List.getD_eq_getElem _ _ hlt, List.getD_eq_getElem _ _ h, List.getElem_drop]

theorem set_bytes_lt {l : List ℕ} (hb : ∀ b ∈ l, b < 256) (i : ℕ) {v : ℕ}
    (hv : v < 256) : ∀ b ∈ l.set i v, b < 256 := by
  induction l generalizing i with
  | nil => intro b hbm; simp at hbm
  | cons hd tl ih =>
    cases i with
    | zero =>
      intro b hbm
      rw [List.set_cons_zero] at hbm
      rcases List.mem_cons.mp hbm with h | h
      · subst h; exact hv
      · exact hb b (List.mem_cons_of_mem _ h)
    | succ j =>
      intro b hbm
      rw [List.set_cons_succ] at hbm
      rcases List.mem_cons.mp hbm with h | h
      · subst h; exact hb _ (List.mem_cons_self _ _)
      · exact ih (fun x hx => hb x (List.mem_cons_of_mem _ hx)) j b h

theorem toBlocks_cons (f : ℕ) (l : List ℕ) (h : l ≠ []) :
    toBlocks (f + 1) l = bytesToNatBE (l.take 16) :: toBlocks f (l.drop 16) := by
  cases l with
  | nil => exact absurd rfl h
  | cons hd tl => rfl

theorem toBlocks_lt (f : ℕ) : ∀ l : List ℕ, (∀ b ∈ l, b < 256) →
    ∀ m ∈ toBlocks f l, m < 2 ^ 128 := by
  induction f with
  | zero => intro l _ m hm; simp [toBlocks] at hm
  | succ f ih =>
    intro l hb m hm
    cases l with
    | nil => simp [toBlocks] at hm
    | cons hd tl =>
      rw [toBlocks_cons f _ (by simp)] at hm
      rcases List.mem_cons.mp hm with h | h
      · subst h
        have h1 : bytesToNatBE ((hd :: tl).take 16) < 256 ^ ((hd :: tl).take 16).length :=
          bytesToNatBE_lt _ (fun b hbm => hb b (List.take_subset _ _ hbm))
        have h2 : (256 : ℕ) ^ ((hd :: tl).take 16).length ≤ 256 ^ 16 := by
          apply Nat.pow_le_pow_right (by norm_num)
          rw [List.length_take]
          exact min_le_left _ _
        have h3 : (256 : ℕ) ^ 16 = 2 ^ 128 := by norm_num
        omega
      · exact ih _ (fun b hbm => hb b (List.drop_subset _ _ hbm)) m h

theorem toBlocks_set_diff : ∀ (f : ℕ) (l : List ℕ) (p v : ℕ),
    l.length ≤ f → p < l.length → (∀ b ∈ l, b < 256) → v < 256 → v ≠ l.getD p 0 →
    ∃ pre m m2 suf, toBlocks f l = pre ++ m :: suf ∧
      toBlocks f (l.set p v) = pre ++ m2 :: suf ∧ m ≠ m2 := by
  intro f
  induction f with
  | zero =>
    intro l p v hf hp _ _ _
    omega
  | succ f ih =>
    intro l p v hf hp hb hv hnv
    have hl : l ≠ [] := by
      intro h
      subst h
      simp at hp
    have hlset : l.set p v ≠ [] := by
      intro h
      have h2 := congrArg List.length h
      rw [List.length_set] at h2
      simp only [List.length_nil] at h2
      omega
    by_cases hp16 : p < 16
    · refine ⟨[], bytesToNatBE (l.take 16), bytesToNatBE ((l.set p v).take 16),
        toBlocks f (l.drop 16), ?_, ?_, ?_⟩
      · rw [toBlocks_cons f l hl]
        rfl
      · rw [toBlocks_cons f _ hlset, List.drop_set, if_pos hp16]
        rfl
      · intro hEq
        have hlens : (l.take 16).length = ((l.set p v).take 16).length := by
          rw [List.set_take, List.length_set]
        have hlists : l.take 16 = (l.set p v).take 16 :=
          bytesToNatBE_inj _ _ hlens
            (fun b hbm => hb b (List.take_subset _ _ hbm))
            (fun b hbm => by
              rw [List.set_take] at hbm
              exact set_bytes_lt (fun x hx => hb x (List.take_subset _ _ hx)) p hv b hbm)
            hEq
        have hplen : p < (l.take 16).length := by
          rw [List.length_take]
          exact lt_min hp16 hp
        have hgd := congrArg (fun t => t.getD p 0) hlists
        simp only at hgd
        rw [List.set_take] at hgd
        rw [getD_set_self _ p v hplen] at hgd
        rw [getD_take l 16 p hp16 hp] at hgd
        exact hnv hgd.symm
    · push_neg at hp16
      have hrec := ih (l.drop 16) (p - 16) v
        (by rw [List.length_drop]; omega)
        (by rw [List.length_drop]; omega)
        (fun b hbm => hb b (List.drop_subset _ _ hbm))
        hv
        (by rw [getD_drop l 16 (p - 16) (by omega), show 16 + (p - 16) = p by omega]
            exact hnv)
      obtain ⟨pre, m, m2, suf, h1, h2, h3⟩ := hrec
      refine ⟨bytesToNatBE (l.take 16) :: pre, m, m2, suf, ?_, ?_, h3⟩
      · rw [toBlocks_cons f l hl, h1]
        rfl
      · rw [toBlocks_cons f _ hlset]
        rw [List.set_take, List.set_eq_of_length_le
          (by rw [List.length_take]; exact le_trans (min_le_left _ _) hp16)]
        rw [List.drop_set, if_neg (by omega), h2]
        rfl

theorem xorLast_append (k : ℕ) (xs : List ℕ) :
    ∀ ys : List ℕ, ys ≠ [] → xorLast k (xs ++ ys) = xs ++ xorLast k ys := by
  induction xs with
  | nil => intro ys _; rfl
  | cons x xs ih =>
    intro ys hys
    rcases hxy : xs ++ ys with _ | ⟨c, cs⟩
    · exact absurd (List.append_eq_nil.mp hxy).2 hys
    · show xorLast k (x :: (xs ++ ys)) = x :: (xs ++ xorLast k ys)
      rw [hxy]
      show x :: xorLast k (c :: cs) = x :: (xs ++ xorLast k ys)
      rw [← hxy, ih ys hys]

theorem xorLast_single (k : ℕ) (xs : List ℕ) (m : ℕ) :
    xorLast k (xs ++ [m]) = xs ++ [m ^^^ k] := by
  rw [xorLast_append k xs [m] (by simp)]
  rfl

theorem xorLast_mem_lt (k : ℕ) (hk : k < 2 ^ 128) :
    ∀ l : List ℕ, (∀ b ∈ l, b < 2 ^ 128) → ∀ b ∈ xorLast k l, b < 2 ^ 128 := by
  intro l
  induction l with
  | nil => intro _ b hbm; simp [xorLast] at hbm
  | cons x xs ih =>
    intro hb b hbm
    cases xs with
    | nil =>
      simp only [xorLast] at hbm
      rcases List.mem_cons.mp hbm with h | h
      · subst h
        exact Nat.xor_lt_two_pow (hb x (List.mem_cons_self _ _)) hk
      · simp at h
    | cons c cs =>
      rw [show xorLast k (x :: c :: cs) = x :: xorLast k (c :: cs) from rfl] at hbm
      rcases List.mem_cons.mp hbm with h | h
      · rw [h]
        exact hb x (List.mem_cons_self _ _)
      · exact ih (fun y hy => hb y (List.mem_cons_of_mem _ hy)) b h

theorem omac_eq_pos (E : ℕ → ℕ) (msg : List ℕ) (h : msg ≠ [] ∧ msg.length % 16 = 0) :
    omac E msg = cbc E 0 (xorLast (dbl (E 0)) (toBlocks (msg.length + 16) msg)) := by
  simp only [omac, omacPad, if_pos h]
  rw [if_pos trivial]

theorem omac_eq_neg (E : ℕ → ℕ) (msg : List ℕ) (h : ¬(msg ≠ [] ∧ msg.length % 16 = 0)) :
    omac E msg = cbc E 0 (xorLast (dbl (dbl (E 0)))
      (toBlocks ((msg ++ 128 :: List.replicate (15 - msg.length % 16) 0).length + 16)
        (msg ++ 128 :: List.replicate (15 - msg.length % 16) 0))) := by
  simp only [omac, omacPad, if_neg h]
  rw [if_neg (by simp)]

theorem omac_lt (E : ℕ → ℕ) (hE1 : ∀ b, E b < 2 ^ 128) (msg : List ℕ) :
    omac E msg < 2 ^ 128 := by
  by_cases h : msg ≠ [] ∧ msg.length % 16 = 0
  · rw [omac_eq_pos E msg h]
    exact cbc_lt E hE1 _ 0 (by norm_num)
  · rw [omac_eq_neg E msg h]
    exact cbc_lt E hE1 _ 0 (by norm_num)

theorem omacCore_ne (E : ℕ → ℕ) (hE1 : ∀ b, E b < 2 ^ 128)
    (hE2 : ∀ a b, a < 2 ^ 128 → b < 2 ^ 128 → E a = E b → a = b)
    (sub : ℕ) (hsub : sub < 2 ^ 128) (mm : List ℕ) (hmm : ∀ b ∈ mm, b < 256)
    (p v : ℕ) (hp : p < mm.length) (hv : v < 256) (hnv : v ≠ mm.getD p 0)
    (f : ℕ) (hf : mm.length ≤ f) :
    cbc E 0 (xorLast sub (toBlocks f (mm.set p v))) ≠
      cbc E 0 (xorLast sub (toBlocks f mm)) := by
  obtain ⟨pre, m, m2, suf, h1, h2, h3⟩ := toBlocks_set_diff f mm p v hf hp hmm hv hnv
  have hmlt : m < 2 ^ 128 := by
    apply toBlocks_lt f mm hmm
    rw [h1]
    exact List.mem_append_right _ (List.mem_cons_self _ _)
  have hm2lt : m2 < 2 ^ 128 := by
    apply toBlocks_lt f (mm.set p v) (set_bytes_lt hmm p hv)
    rw [h2]
    exact List.mem_append_right _ (List.mem_cons_self _ _)
  have hsuflt : ∀ b ∈ suf, b < 2 ^ 128 := by
    intro b hbm
    apply toBlocks_lt f mm hmm
    rw [h1]
    exact List.mem_append_right _ (List.mem_cons_of_mem _ hbm)
  rw [h1, h2]
  cases suf with
  | nil =>
    rw [xorLast_single, xorLast_single]
    exact cbc_single_diff E hE1 hE2 pre [] (m2 ^^^ sub) (m ^^^ sub) 0 (by norm_num)
      (Nat.xor_lt_two_pow hm2lt hsub) (Nat.xor_lt_two_pow hmlt hsub)
      (by intro b hbm; simp at hbm)
      (fun hEq => h3 (by
        have := congrArg (fun t => t ^^^ sub) hEq
        simpa [Nat.xor_cancel_right] using this.symm))
  | cons c cs =>
    have hcons : c :: cs ≠ [] := by simp
    rw [xorLast_append sub pre (m :: c :: cs) (by simp),
      xorLast_append sub pre (m2 :: c :: cs) (by simp)]
    rw [show xorLast sub (m :: c :: cs) = m :: xorLast sub (c :: cs) from rfl]
    rw [show xorLast sub (m2 :: c :: cs) = m2 :: xorLast sub (c :: cs) from rfl]
    exact cbc_single_diff E hE1 hE2 pre (xorLast sub (c :: cs)) m2 m 0 (by norm_num)
      hm2lt hmlt (xorLast_mem_lt sub hsub _ hsuflt) (fun hEq => h3 hEq.symm)

theorem omac_flip_ne (E : ℕ → ℕ) (hE1 : ∀ b, E b < 2 ^ 128)
    (hE2 : ∀ a b, a < 2 ^ 128 → b < 2 ^ 128 → E a = E b → a = b)
    (msg : List ℕ) (hmb : ∀ b ∈ msg, b < 256) (p v : ℕ)
    (hp : p < msg.length) (hv : v < 256) (hne : v ≠ msg.getD p 0) :
    omac E (msg.set p v) ≠ omac E msg := by
  have hmsgne : msg ≠ [] := by
    intro h
    subst h
    simp at hp
  have hsetne : msg.set p v ≠ [] := by
    intro h
    have h2 := congrArg List.length h
    rw [List.length_set] at h2
    simp only [List.length_nil] at h2
    omega
  by_cases hmod : msg.length % 16 = 0
  · rw [omac_eq_pos E msg ⟨hmsgne, hmod⟩,
      omac_eq_pos E (msg.set p v) ⟨hsetne, by rw [List.length_set]; exact hmod⟩]
    rw [List.length_set]
    exact omacCore_ne E hE1 hE2 (dbl (E 0)) (dbl_lt _) msg hmb p v hp hv hne
      (msg.length + 16) (by omega)
  · rw [omac_eq_neg E msg (fun hc => hmod hc.2),
      omac_eq_neg E (msg.set p v) (fun hc => hmod (by rw [← List.length_set msg p v]; exact hc.2))]
    rw [List.length_set]
    have hpad : msg.set p v ++ 128 :: List.replicate (15 - msg.length % 16) 0 =
        (msg ++ 128 :: List.replicate (15 - msg.length % 16) 0).set p v :=
      (List.set_append_left p v hp).symm
    rw [hpad]
    have hmm : ∀ b ∈ msg ++ 128 :: List.replicate (15 - msg.length % 16) 0, b < 256 := by
      intro b hbm
      rcases List.mem_append.mp hbm with h | h
      · exact hmb b h
      · rcases List.mem_cons.mp h with h | h
        · omega
        · rw [List.eq_of_mem_replicate h]
          omega
    rw [List.length_set]
    exact omacCore_ne E hE1 hE2 (dbl (dbl (E 0))) (dbl_lt _)
      (msg ++ 128 :: List.replicate (15 - msg.length % 16) 0) hmm p v
      (by rw [List.length_append]; omega) hv
      (by rw [List.getD_append _ _ _ _ hp]; exact hne)
      ((msg ++ 128 :: List.replicate (15 - msg.length % 16) 0).length + 16) (by omega)

theorem zipWith_xor_bytes_lt : ∀ (a ks : List ℕ), (∀ b ∈ a, b < 256) →
    (∀ b ∈ ks, b < 256) → ∀ b ∈ List.zipWith (· ^^^ ·) a ks, b < 256 := by
  intro a
  induction a with
  | nil => intro ks _ _ b hbm; simp at hbm
  | cons x xs ih =>
    intro ks ha hks b hbm
    cases ks with
    | nil => simp at hbm
    | cons y ys =>
      rw [List.zipWith_cons_cons] at hbm
      rcases List.mem_cons.mp hbm with h | h
      · have h8 : (2 : ℕ) ^ 8 = 256 := by norm_num
        have hx : x < 2 ^ 8 := by rw [h8]; exact ha x (List.mem_cons_self _ _)
        have hy : y < 2 ^ 8 := by rw [h8]; exact hks y (List.mem_cons_self _ _)
        rw [h, ← h8]
        exact Nat.xor_lt_two_pow hx hy
      · exact ih ys (fun t ht => ha t (List.mem_cons_of_mem _ ht))
          (fun t ht => hks t (List.mem_cons_of_mem _ ht)) b h

theorem keystream_bytes_lt (E : ℕ → ℕ) (n0 len : ℕ) :
    ∀ b ∈ keystream E n0 len, b < 256 := by
  intro b hbm
  rw [keystream] at hbm
  have hbm2 := List.take_subset _ _ hbm
  rw [List.mem_flatten] at hbm2
  obtain ⟨l, hl, hbl⟩ := hbm2
  rw [List.mem_map] at hl
  obtain ⟨blk, -, hblk⟩ := hl
  rw [← hblk] at hbl
  exact natToBytesBE_bytes_lt 16 blk b hbl

theorem omacT_lt (E : ℕ → ℕ) (hE1 : ∀ b, E b < 2 ^ 128) (t : ℕ) (m : List ℕ) :
    omacT E t m < 2 ^ 128 := by
  simp only [omacT]
  exact omac_lt E hE1 _

/-- C8: tamper detection.  For an honestly produced AES-EAX
`(key, nonce, ciphertext, tag)`, flipping any single bit of the
ciphertext or of the 16-byte tag makes `decrypt_aes_eax` fail with the
MAC-check error and release no plaintext, when called with the correct
key and nonce.  The block permutation is assumed to map 128-bit blocks
to 128-bit blocks injectively. -/
theorem C8_tamper (E : List ℕ → ℕ → ℕ) (key nonce data c tag : List ℕ)
    (hkey : key.length = 32)
    (hE1 : ∀ b, E key b < 2 ^ 128)
    (hE2 : ∀ a b, a < 2 ^ 128 → b < 2 ^ 128 → E key a = E key b → a = b)
    (hdata : ∀ b ∈ data, b < 256)
    (henc : encrypt_aes_eax E data nonce key = .ok (c, tag))
    (i k : ℕ) (hk : k < 8) :
    (i < c.length →
      decrypt_aes_eax E (flipByte c i k) tag nonce key = .error .macCheckFailed) ∧
    (i < 16 →
      decrypt_aes_eax E c (flipByte tag i k) nonce key = .error .macCheckFailed) := by
  rw [encrypt_aes_eax_ok E data nonce key hkey] at henc
  have hp := Except.ok.inj henc
  have hc := congrArg Prod.fst hp
  have htag := congrArg Prod.snd hp
  simp only [eaxEnc] at hc htag
  rw [hc] at htag
  -- hc : zipWith xor data ks = c, htag : natToBytesBE 16 (n0 ^^^ omacT 2 c ^^^ h0) = tag
  have hcb : ∀ b ∈ c, b < 256 := by
    rw [← hc]
    exact zipWith_xor_bytes_lt data _ hdata (keystream_bytes_lt _ _ _)
  have h16 : (256 : ℕ) ^ 16 = 2 ^ 128 := by norm_num
  have h8 : (2 : ℕ) ^ 8 = 256 := by norm_num
  constructor
  · intro hi
    rw [decrypt_aes_eax_ok E _ _ _ _ hkey]
    have hcond : ¬(natToBytesBE 16 (omacT (E key) 0 nonce ^^^
        omacT (E key) 2 (flipByte c i k) ^^^ omacT (E key) 1 []) = tag) := by
      rw [← htag]
      intro hEq
      have hX1 : omacT (E key) 0 nonce ^^^ omacT (E key) 2 (flipByte c i k) ^^^
          omacT (E key) 1 [] < 2 ^ 128 :=
        Nat.xor_lt_two_pow (Nat.xor_lt_two_pow (omacT_lt _ hE1 _ _) (omacT_lt _ hE1 _ _))
          (omacT_lt _ hE1 _ _)
      have hX2 : omacT (E key) 0 nonce ^^^ omacT (E key) 2 c ^^^
          omacT (E key) 1 [] < 2 ^ 128 :=
        Nat.xor_lt_two_pow (Nat.xor_lt_two_pow (omacT_lt _ hE1 _ _) (omacT_lt _ hE1 _ _))
          (omacT_lt _ hE1 _ _)
      have hXX := natToBytesBE_inj 16 _ _ (by rw [h16]; exact hX1) (by rw [h16]; exact hX2) hEq
      have hstep1 := congrArg (fun t => t ^^^ omacT (E key) 1 []) hXX
      simp only [Nat.xor_cancel_right] at hstep1
      have hstep2 : omacT (E key) 2 (flipByte c i k) = omacT (E key) 2 c := by
        calc omacT (E key) 2 (flipByte c i k)
            = omacT (E key) 0 nonce ^^^ (omacT (E key) 0 nonce ^^^
                omacT (E key) 2 (flipByte c i k)) := (Nat.xor_cancel_left _ _).symm
          _ = omacT (E key) 0 nonce ^^^ (omacT (E key) 0 nonce ^^^ omacT (E key) 2 c) := by
              rw [hstep1]
          _ = omacT (E key) 2 c := Nat.xor_cancel_left _ _
      have hgdi : c.getD i 0 < 256 := by
        rw [List.getD_eq_getElem c 0 hi]
        exact hcb _ (List.getElem_mem hi)
      have hvlt : c.getD i 0 ^^^ 2 ^ k < 256 := by
        rw [← h8]
        exact Nat.xor_lt_two_pow (by rw [h8]; exact hgdi)
          (Nat.pow_lt_pow_right (by norm_num) hk)
      have hflip : natToBytesBE 16 2 ++ flipByte c i k =
          (natToBytesBE 16 2 ++ c).set (16 + i) (c.getD i 0 ^^^ 2 ^ k) := by
        rw [flipByte, List.set_append_right _ _ (by rw [natToBytesBE_length]; omega),
          natToBytesBE_length, show 16 + i - 16 = i from by omega]
      have hnv : c.getD i 0 ^^^ 2 ^ k ≠ (natToBytesBE 16 2 ++ c).getD (16 + i) 0 := by
        rw [List.getD_append_right _ _ _ _ (by rw [natToBytesBE_length]; omega),
          natToBytesBE_length, show 16 + i - 16 = i from by omega]
        intro hxe
        have h2k : (2 : ℕ) ^ k = 0 := by
          calc (2 : ℕ) ^ k
              = c.getD i 0 ^^^ (c.getD i 0 ^^^ 2 ^ k) := (Nat.xor_cancel_left _ _).symm
            _ = c.getD i 0 ^^^ c.getD i 0 := by rw [hxe]
            _ = 0 := Nat.xor_self _
        have h2kpos : 0 < (2 : ℕ) ^ k := pow_pos (by norm_num) k
        omega
      have hbytes : ∀ b ∈ natToBytesBE 16 2 ++ c, b < 256 := by
        intro b hbm
        rcases List.mem_append.mp hbm with h | h
        · exact natToBytesBE_bytes_lt 16 2 b h
        · exact hcb b h
      have hlast : omacT (E key) 2 (flipByte c i k) ≠ omacT (E key) 2 c := by
        simp only [omacT]
        rw [hflip]
        exact omac_flip_ne (E key) hE1 hE2 (natToBytesBE 16 2 ++ c) hbytes (16 + i) _
          (by rw [List.length_append, natToBytesBE_length]; omega) hvlt hnv
      exact hlast hstep2
    simp only [eaxDec]
    rw [if_neg hcond]
  · intro hi
    rw [decrypt_aes_eax_ok E _ _ _ _ hkey]
    have htlen : tag.length = 16 := by
      rw [← htag]
      exact natToBytesBE_length _ _
    have hcond : ¬(natToBytesBE 16 (omacT (E key) 0 nonce ^^^
        omacT (E key) 2 c ^^^ omacT (E key) 1 []) = flipByte tag i k) := by
      rw [htag]
      intro hEq
      have hgd := congrArg (fun t => t.getD i 0) hEq
      simp only at hgd
      rw [flipByte, getD_set_self tag i _ (by omega)] at hgd
      have h2k : (2 : ℕ) ^ k = 0 := by
        calc (2 : ℕ) ^ k
            = tag.getD i 0 ^^^ (tag.getD i 0 ^^^ 2 ^ k) := (Nat.xor_cancel_left _ _).symm
          _ = tag.getD i 0 ^^^ tag.getD i 0 := by rw [← hgd]
          _ = 0 := Nat.xor_self _
      have h2kpos : 0 < (2 : ℕ) ^ k := pow_pos (by norm_num) k
      omega
    simp only [eaxDec]
    rw [if_neg hcond]

/-- A concrete AES-EAX encryption run for the tamper witness. -/
def encW8 : Except CryptoError (List ℕ × List ℕ) :=
  encrypt_aes_eax EW2 [0] [] (List.replicate 32 0)

/-- Ciphertext of the concrete tamper run. -/
def cW8 : List ℕ :=
  match encW8 with
  | .ok pr => pr.1
  | .error _ => []

/-- Tag of the concrete tamper run. -/
def tagW8 : List ℕ :=
  match encW8 with
  | .ok pr => pr.2
  | .error _ => []

/-- Witness for C8: flipping bit 0 of byte 0 of the ciphertext, or of the
tag, of a concrete run fails the MAC check. -/
theorem C8_tamper_witness :
    decrypt_aes_eax EW2 (flipByte cW8 0 0) tagW8 [] (List.replicate 32 0) =
      .error .macCheckFailed ∧
    decrypt_aes_eax EW2 cW8 (flipByte tagW8 0 0) [] (List.replicate 32 0) =
      .error .macCheckFailed := by
  have h := C8_tamper EW2 (List.replicate 32 0) [] [0] cW8 tagW8
    (by decide)
    (fun b => Nat.mod_lt b (by norm_num))
    (fun a b ha hb hab => by
      simp only [EW2] at hab
      rwa [Nat.mod_eq_of_lt ha, Nat.mod_eq_of_lt hb] at hab)
    (by decide)
    (by rfl)
    0 0 (by decide)
  exact ⟨h.1 (by decide), h.2 (by decide)⟩

end FMDN
